import Mathlib

/-!
A verification development for the prolly-tree core of this repository.

The Go sources are shallowly embedded: tuples are lists of optional
integers (a `none` field stands for SQL NULL, and encoded field values
are modelled as integers compared through the descriptor comparator),
range cuts and ranges mirror the `prolly.Range` machinery, the address
map builder mirrors `addrMapBuilder`, and the archive, cache and CAS
layers are modelled where their code is present, or from the
specification where only tests or callers are in scope.
-/

namespace Prolly

/-- A tuple field value: `none` models a SQL NULL field (and also a field
read past the end of the tuple). Encoded byte-string values are modelled
as integers; the descriptor comparator becomes integer comparison. -/
abbrev FieldVal := Option Int

/-- A packed tuple, modelled as the list of its fields. -/
abbrev Tuple := List FieldVal

/-- Modelled from the spec: `val.Tuple.GetField` extracts the i-th field
of a packed tuple, returning nil (here `none`) for a NULL field. -/
def getField (t : Tuple) (i : Nat) : FieldVal :=
  t.getD i none

/-- Modelled from the spec: the descriptor comparator compares two encoded
field values, returning a negative, zero or positive sign. -/
def cmpI (a b : Int) : Int :=
  if a < b then -1 else if a = b then 0 else 1

/-- Modelled from the spec: `TupleDesc.CompareField` and
`TupleComparator.CompareValues` compare encoded values; in the embedding
both arguments are present (`some`) on every reachable call site, so the
default for an absent value is arbitrary. -/
def compareVals (cv fv : FieldVal) : Int :=
  cmpI (cv.getD 0) (fv.getD 0)

/-- `RangeCut` bounds one dimension of a `Range` (source `part_004`). -/
structure RangeCut where
  value : FieldVal
  inclusive : Bool
  null : Bool
deriving DecidableEq

/-- The nonBinding cut: `RangeCut{Value: nil}`. -/
def nbCut : RangeCut := ⟨none, false, false⟩

/-- `RangeCut.nonBinding` from the source: a cut with no value and no
null marker matches any field. -/
def RangeCut.nonBinding (c : RangeCut) : Bool :=
  c.value.isNone && !c.null

/-- A `Range` over tuples: two parallel vectors of per-column cuts
(source `part_004`). The descriptor is implicit in the embedding, its
comparator being integer comparison. -/
structure PRange where
  start : List RangeCut
  stop : List RangeCut
deriving DecidableEq

/-- The body of the `Range.AboveStart` loop, with `i` the column index of
the first cut in `cuts` (source `part_004` lines 36-57). -/
def aboveStartAux (t : Tuple) : List RangeCut → Nat → Bool
  | [], _ => true
  | c :: rest, i =>
    if c.nonBinding then aboveStartAux t rest (i + 1)
    else
      let v := getField t i
      if c.null || v.isNone then c.null && v.isNone
      else
        let cmp := compareVals c.value v
        if cmp < 0 || (c.inclusive && cmp = 0) then aboveStartAux t rest (i + 1)
        else false

/-- `Range.AboveStart` from the source. -/
def PRange.aboveStart (r : PRange) (t : Tuple) : Bool :=
  aboveStartAux t r.start 0

/-- The body of the `Range.BelowStop` loop, with `i` the column index of
the first cut in `cuts` (source `part_004` lines 59-81). -/
def belowStopAux (t : Tuple) : List RangeCut → Nat → Bool
  | [], _ => true
  | c :: rest, i =>
    if c.nonBinding then belowStopAux t rest (i + 1)
    else
      let v := getField t i
      if c.null || v.isNone then c.null && v.isNone
      else
        let cmp := compareVals c.value v
        if cmp > 0 || (c.inclusive && cmp = 0) then belowStopAux t rest (i + 1)
        else false

/-- `Range.BelowStop` from the source. -/
def PRange.belowStop (r : PRange) (t : Tuple) : Bool :=
  belowStopAux t r.stop 0

/-- The spec defines range membership: the range admits a tuple iff
`AboveStart(t) ∧ BelowStop(t)`. -/
def PRange.admits (r : PRange) (t : Tuple) : Bool :=
  r.aboveStart t && r.belowStop t

/-! Specification-side reformulation of the two phases, written from the
words of the claim: each phase scans columns; a nonBinding cut skips its
column; a Null cut is decisive, satisfied exactly when the field is NULL;
a value cut that is satisfied lets the scan continue and one that is
violated (including against a NULL field, NULLs being kept apart from
value bounds) is decisive; the first decisive column determines the
result of the phase, and a scan with no decisive column accepts. -/

/-- The verdict of a single column in the start phase: `none` when the
column does not discriminate, `some b` when it decides the phase. -/
def startVerdict (c : RangeCut) (v : FieldVal) : Option Bool :=
  if c.nonBinding then none
  else if c.null || v.isNone then some (c.null && v.isNone)
  else if compareVals c.value v < 0 || (c.inclusive && compareVals c.value v = 0) then none
  else some false

/-- The verdict of a single column in the stop phase. -/
def stopVerdict (c : RangeCut) (v : FieldVal) : Option Bool :=
  if c.nonBinding then none
  else if c.null || v.isNone then some (c.null && v.isNone)
  else if compareVals c.value v > 0 || (c.inclusive && compareVals c.value v = 0) then none
  else some false

/-- Start phase, spec side: the first column whose cut discriminates
decides; with no decisive column, the tuple is above the start. -/
def specAboveStart (cuts : List RangeCut) (t : Tuple) : Bool :=
  (cuts.enum.findSome? (fun p => startVerdict p.2 (getField t p.1))).getD true

/-- Stop phase, spec side. -/
def specBelowStop (cuts : List RangeCut) (t : Tuple) : Bool :=
  (cuts.enum.findSome? (fun p => stopVerdict p.2 (getField t p.1))).getD true

/-! Range constructors (source `part_004` lines 278-361). The descriptor
is represented by its column count `k` (the length of `desc.Types`);
`tup.GetField i` on the bound tuple supplies each cut value. -/

/-- `inclusiveBound` from the source: one inclusive value cut per column. -/
def inclusiveBound (t : Tuple) (k : Nat) : List RangeCut :=
  (List.range k).map (fun i => ⟨getField t i, true, false⟩)

/-- Helper for `exclusiveBound`: clear the `Inclusive` flag of the last
cut, mirroring `cut[len(cut)-1].Inclusive = false`. -/
def lastExcl : List RangeCut → List RangeCut
  | [] => []
  | [c] => [{ c with inclusive := false }]
  | c :: c2 :: rest => c :: lastExcl (c2 :: rest)

/-- `exclusiveBound` from the source. -/
def exclusiveBound (t : Tuple) (k : Nat) : List RangeCut :=
  lastExcl (inclusiveBound t k)

/-- `GreaterRange` from the source: tuples greater than `start`. -/
def GreaterRange (start : Tuple) (k : Nat) : PRange :=
  ⟨exclusiveBound start k, []⟩

/-- `GreaterOrEqualRange` from the source. -/
def GreaterOrEqualRange (start : Tuple) (k : Nat) : PRange :=
  ⟨inclusiveBound start k, []⟩

/-- `LesserRange` from the source: tuples less than `stop`. -/
def LesserRange (stop : Tuple) (k : Nat) : PRange :=
  ⟨[], exclusiveBound stop k⟩

/-- `LesserOrEqualRange` from the source. -/
def LesserOrEqualRange (stop : Tuple) (k : Nat) : PRange :=
  ⟨[], inclusiveBound stop k⟩

/-- `OpenRange` from the source. -/
def OpenRange (start stop : Tuple) (k : Nat) : PRange :=
  ⟨exclusiveBound start k, exclusiveBound stop k⟩

/-- `OpenStartRange` from the source. -/
def OpenStartRange (start stop : Tuple) (k : Nat) : PRange :=
  ⟨exclusiveBound start k, inclusiveBound stop k⟩

/-- `OpenStopRange` from the source. -/
def OpenStopRange (start stop : Tuple) (k : Nat) : PRange :=
  ⟨inclusiveBound start k, exclusiveBound stop k⟩

/-- `ClosedRange` from the source. -/
def ClosedRange (start stop : Tuple) (k : Nat) : PRange :=
  ⟨inclusiveBound start k, inclusiveBound stop k⟩

/-- The `Inclusive` flag of the cut at column `i` of a bound vector. -/
def cutIncl (l : List RangeCut) (i : Nat) : Bool :=
  (l.getD i nbCut).inclusive

/-- A bound vector over `k` columns whose columns before the last are all
marked inclusive and whose last column carries the given inclusivity. -/
def inclVec (l : List RangeCut) (k : Nat) (lastIncl : Bool) : Prop :=
  l.length = k ∧ (∀ i, i < k - 1 → cutIncl l i = true) ∧ cutIncl l (k - 1) = lastIncl

/-! Range comparison, overlap, merge and sorting (source `part_004`
lines 83-216). `sort.Slice` runs an insertion sort on inputs of this
size, which `insSort` mirrors; `overlaps` indexes cut 0 directly, which
the embedding reads through `cut0` (the head cut of a bound vector). -/

/-- `RangeCut.less` from the source: nulls are ordered last, nonBinding
cuts compare below nothing, and at equal values a cut is less whenever
either side is exclusive. -/
def RangeCut.less (c other : RangeCut) : Bool :=
  if c.null || other.null then !c.null && other.null
  else if c.nonBinding || other.nonBinding then false
  else
    let cmp := compareVals c.value other.value
    if cmp = 0 then !c.inclusive || !other.inclusive
    else cmp < 0

/-- `Range.less` from the source: true when some column of the start
bound of `r` is less than the corresponding column of `other`. -/
def PRange.rless (r other : PRange) : Bool :=
  (r.start.zip other.start).any (fun p => p.1.less p.2)

/-- Column-0 cut of a bound vector. The Go code indexes element 0
directly; every range reaching `overlaps` carries a column-0 cut. -/
def cut0 (l : List RangeCut) : RangeCut :=
  l.headD nbCut

/-- `Range.overlaps` from the source: two ranges overlap iff neither
Stop cut is strictly less than the Start cut of the other on column 0. -/
def PRange.overlaps (r other : PRange) : Bool :=
  !((cut0 r.stop).less (cut0 other.start)) && !((cut0 other.stop).less (cut0 r.start))

/-- One column of the lower-bound merge: min of the cut pair, nonBinding
absorbing. -/
def mergeLower (l rt : RangeCut) : RangeCut :=
  if l.nonBinding || rt.nonBinding then nbCut
  else if rt.less l then rt else l

/-- One column of the upper-bound merge: max of the cut pair, nonBinding
absorbing. -/
def mergeUpper (l rt : RangeCut) : RangeCut :=
  if l.nonBinding || rt.nonBinding then nbCut
  else if rt.less l then l else rt

/-- `Range.merge` from the source: columnwise min of starts and max of
stops. -/
def PRange.merge (r other : PRange) : PRange :=
  ⟨(r.start.zip other.start).map (fun p => mergeLower p.1 p.2),
   (r.stop.zip other.stop).map (fun p => mergeUpper p.1 p.2)⟩

/-- One step of the Go insertion sort: the new element bubbles left
through the already-sorted prefix, held here in reverse order. -/
def bubble {α : Type} (less : α → α → Bool) (x : α) : List α → List α
  | [] => [x]
  | y :: ys => if less x y then y :: bubble less x ys else x :: y :: ys

/-- Insertion sort over a reversed sorted prefix, mirroring the loop
`sort.Slice` executes for short inputs. -/
def insSortAux {α : Type} (less : α → α → Bool) : List α → List α → List α
  | acc, [] => acc
  | acc, x :: xs => insSortAux less (bubble less x acc) xs

/-- Insertion sort. -/
def insSort {α : Type} (less : α → α → Bool) (l : List α) : List α :=
  (insSortAux less [] l).reverse

/-- `SortRanges` from the source: sort ranges by start bound. -/
def SortRanges (rs : List PRange) : List PRange :=
  insSort PRange.rless rs

/-- The accumulator loop of `MergeOverlappingRanges`. -/
def mergeAcc : PRange → List PRange → List PRange
  | acc, [] => [acc]
  | acc, r :: rest =>
    if acc.overlaps r then mergeAcc (acc.merge r) rest
    else acc :: mergeAcc r rest

/-- `MergeOverlappingRanges` from the source. -/
def MergeOverlappingRanges (rs : List PRange) : List PRange :=
  if rs.length ≤ 1 then rs
  else
    match SortRanges rs with
    | [] => []
    | r :: rest => mergeAcc r rest

/-! Abstraction of single-column closed value ranges to integer
intervals, for the amended merge theorem. -/

/-- The class of single-column ranges whose start and stop cuts are
binding, non-null, inclusive value cuts forming a nonempty interval. -/
def simpleB (r : PRange) : Bool :=
  match r.start, r.stop with
  | [cs], [ct] =>
    match cs.value, ct.value with
    | some a, some b => cs.inclusive && !cs.null && ct.inclusive && !ct.null && a ≤ b
    | _, _ => false
  | _, _ => false

/-- An integer interval with inclusive endpoints. -/
abbrev Iv := Int × Int

/-- Interval order by lower endpoint. -/
def ivLess (x y : Iv) : Bool := x.1 < y.1

/-- Interval overlap: neither upper endpoint below the other lower. -/
def ivOverlaps (x y : Iv) : Bool := !(x.2 < y.1) && !(y.2 < x.1)

/-- Interval merge: envelope of the endpoints. -/
def ivMerge (x y : Iv) : Iv := (min x.1 y.1, max x.2 y.2)

/-- Interval membership. -/
def ivMem (v : Int) (x : Iv) : Bool := x.1 ≤ v && v ≤ x.2

/-- Membership of an optional field in an interval: a NULL field is in
no interval. -/
def ivMemF (x : Iv) : FieldVal → Bool
  | none => false
  | some w => ivMem w x

/-- The accumulator loop on intervals. -/
def ivMergeAcc : Iv → List Iv → List Iv
  | acc, [] => [acc]
  | acc, r :: rest =>
    if ivOverlaps acc r then ivMergeAcc (ivMerge acc r) rest
    else acc :: ivMergeAcc r rest

/-- The interval abstracted from a simple range. -/
def abstr (r : PRange) : Iv :=
  ((cut0 r.start).value.getD 0, (cut0 r.stop).value.getD 0)

/-- The single-column closed value range `[a, b]`. -/
def simpleRange (a b : Int) : PRange :=
  ⟨[⟨some a, true, false⟩], [⟨some b, true, false⟩]⟩

-- MORE-DEFS-MARKER

end Prolly

-- DEFS-SECTION-END-MARKER

namespace AddrMapB

/-! The address map node builder (source `part_003`, `addrMapBuilder`).
The flatbuffer serialization is embedded at the level of the logical
node fields the claim speaks about. -/

/-- A byte-slice item handed to the builder. -/
abbrev Item := List Nat

/-- `tree.MaxVectorOffset`. Modelled from the spec: offsets in the
serialized node are unsigned 16-bit, so the capacity bound is 65535. -/
def maxVectorOffset : Nat := 65535

/-- The builder state: parallel key and value buffers, the running
serialized size, the tree level, and the per-child subtree counts. -/
structure AddrMapBuilder where
  keys : List Item
  values : List Item
  size : Nat
  level : Nat
  subtrees : List Nat

/-- `newAddrMapBuilder` from the source. -/
def newAddrMapBuilder (level : Nat) : AddrMapBuilder :=
  ⟨[], [], 0, level, []⟩

/-- `StartNode` (via `reset`) from the source. -/
def startNode (b : AddrMapBuilder) : AddrMapBuilder :=
  { b with keys := [], values := [], size := 0, subtrees := [] }

/-- `HasCapacity` from the source. -/
def hasCapacity (b : AddrMapBuilder) (key value : Item) : Bool :=
  b.size + key.length + value.length ≤ maxVectorOffset

/-- `AddItems` from the source. -/
def addItems (b : AddrMapBuilder) (key value : Item) (subtree : Nat) : AddrMapBuilder :=
  { b with
    keys := b.keys ++ [key]
    values := b.values ++ [value]
    size := b.size + key.length + value.length
    subtrees := b.subtrees ++ [subtree] }

/-- The logical content of the node `Build` serializes: key items, the
address array, the subtree-count varints (internal nodes only), the tree
count and the tree level. -/
structure BuiltNode where
  keys : List Item
  addressArray : List Item
  subtreeCounts : Option (List Nat)
  treeCount : Nat
  level : Nat

/-- `Build` from the source: an internal node stores the subtree counts
and their sum as `treeCount`; a leaf stores the key count. -/
def build (b : AddrMapBuilder) : BuiltNode :=
  if 0 < b.level then
    ⟨b.keys, b.values, some b.subtrees, b.subtrees.sum, b.level⟩
  else
    ⟨b.keys, b.values, none, b.keys.length, b.level⟩

/-- A builder reached by adding a batch of items to a fresh builder. -/
def builderOf (level : Nat) (items : List (Item × Item × Nat)) : AddrMapBuilder :=
  items.foldl (fun b kvs => addItems b kvs.1 kvs.2.1 kvs.2.2) (newAddrMapBuilder level)

end AddrMapB

namespace Archive

/-! The archive build pass, `relateCommitToParentChunks`
(source `src/go/cmd/dolt/commands/admin/archive.go` lines 154-227).
The diff and tree layers it calls are abstracted: a table delta carries
the three change predicates the code branches on plus the two row maps
and their root node levels, and `ChunkAddressDiffOrderedTrees` is an
arbitrary function reporting `(from, to)` address pairs. `Add` on the
`ChunkRelations` union-find is embedded as recording the pair. -/

/-- A chunk address. -/
abbrev Addr := Nat

/-- An opaque row map (only its identity and root level matter here). -/
abbrev RowMap := Nat

/-- One table delta between a commit root and a parent root. -/
structure TableDelta where
  schemaChanged : Bool
  pkChanged : Bool
  dataChanged : Bool
  fromLevel : Nat
  toLevel : Nat
  fromMap : RowMap
  toMap : RowMap

/-- The per-parent delta loop of `relateCommitToParentChunks`: deltas
with changed schema, changed primary key set, unchanged row data, or
mismatched root levels are skipped; for the rest every pair reported by
the tree walk is recorded. -/
def relateDeltas (walk : RowMap → RowMap → List (Addr × Addr))
    (g : List (Addr × Addr)) (deltas : List TableDelta) : List (Addr × Addr) :=
  deltas.foldl
    (fun g d =>
      if d.schemaChanged then g
      else if d.pkChanged then g
      else if !d.dataChanged then g
      else if d.fromLevel ≠ d.toLevel then g
      else g ++ walk d.fromMap d.toMap)
    g

/-- `relateCommitToParentChunks` from the source: the outer loop over
the parents of the commit, each contributing its list of table deltas. -/
def relateCommitToParentChunks (walk : RowMap → RowMap → List (Addr × Addr))
    (parentDeltas : List (List TableDelta)) (g : List (Addr × Addr)) :
    List (Addr × Addr) :=
  parentDeltas.foldl (relateDeltas walk) g

end Archive

namespace Spatial

/-! The spatial range construction, `doltIndex.prollySpatialRanges`
(source `part_000` lines 1051-1102). `ZValue`, `SplitZRanges` and
`ZMask` live outside the sources in scope, so the split Z-ranges enter
as a list and the mask as an arbitrary function; the claim is settled
for every choice of them. -/

/-- A Z-order value. -/
abbrev ZVal := Int

/-- A masked cell value. -/
abbrev Cell := Int

/-- A contiguous Z-range `[zLo, zHi]`. -/
abbrev ZRangePair := ZVal × ZVal

/-- `prolly.Bound`. -/
structure SBound where
  binding : Bool
  inclusive : Bool
  value : Cell
deriving DecidableEq

/-- `prolly.RangeField`. -/
structure SRangeField where
  exact : Bool
  lo : SBound
  hi : SBound
deriving DecidableEq

/-- A field-based prolly range (the `Fields`-style `prolly.Range`). -/
structure SRange where
  fields : List SRangeField
deriving DecidableEq

/-- The single-field range the loop emits: both bounds binding and
inclusive with the masked min and max cells as values. -/
def cellRange (mn mx : Cell) : SRange :=
  ⟨[⟨false, ⟨true, true, mn⟩, ⟨true, true, mx⟩⟩]⟩

/-- The range emitted for one Z-range at one cell level. -/
def mkSpatialRange (zMask : Nat → ZVal → Cell) (level : Nat) (zr : ZRangePair) : SRange :=
  cellRange (zMask level zr.1) (zMask level zr.2)

/-- The inner loop over the split Z-ranges at one level: `prev` holds
the cell pair of the last emitted range (`none` before the first
iteration, mirroring the `i != 0` guard). -/
def levelLoop (zMask : Nat → ZVal → Cell) (level : Nat) :
    List ZRangePair → Option (Cell × Cell) → List SRange
  | [], _ => []
  | zr :: rest, prev =>
    let mn := zMask level zr.1
    let mx := zMask level zr.2
    if prev = some (mn, mx) then levelLoop zMask level rest prev
    else cellRange mn mx :: levelLoop zMask level rest (some (mn, mx))

/-- `prollySpatialRanges` from the source: the outer loop over cell
levels 0 through 64, appending the ranges each level emits. -/
def prollySpatialRanges (zMask : Nat → ZVal → Cell) (zRanges : List ZRangePair) :
    List SRange :=
  (List.range 65).flatMap (fun level => levelLoop zMask level zRanges none)

/-- Removal of consecutive duplicates, continuing from a previous
element. -/
def dedupGo {α : Type} [DecidableEq α] (prev : α) : List α → List α
  | [] => []
  | b :: bs => if b = prev then dedupGo prev bs else b :: dedupGo b bs

/-- Removal of consecutive duplicates. -/
def dedupConsec {α : Type} [DecidableEq α] : List α → List α
  | [] => []
  | a :: rest => a :: dedupGo a rest

end Spatial

namespace Cache

/-! The remote-storage map chunk cache. Modelled from the spec (§4.8):
the implementation is outside the sources in scope, only its test is
present. A chunk carries its hash; the cache is a pair of association
lists for the stored chunks and the pending-flush set. -/

/-- A chunk paired with its hash. -/
structure Chunk where
  chash : Nat
  payload : Nat
deriving DecidableEq

/-- Association-list lookup by hash. -/
def assocFind : List (Nat × Chunk) → Nat → Option Chunk
  | [], _ => none
  | (h, c) :: rest, q => if h = q then some c else assocFind rest q

/-- The cache state: stored chunks and the pending `toFlush` set. -/
structure MCC where
  cache : List (Nat × Chunk)
  toFlush : List (Nat × Chunk)

/-- The empty cache. -/
def newMapChunkCache : MCC := ⟨[], []⟩

/-- Modelled from the spec: `PutChunk` inserts a single chunk and
returns true iff it was new, in which case it is also added to
`toFlush`; an already-present chunk leaves the state unchanged. -/
def putChunk (s : MCC) (c : Chunk) : Bool × MCC :=
  match assocFind s.cache c.chash with
  | some _ => (false, s)
  | none => (true, ⟨(c.chash, c) :: s.cache, (c.chash, c) :: s.toFlush⟩)

/-- Modelled from the spec: `Put` inserts many chunks. -/
def put (s : MCC) (cs : List Chunk) : MCC :=
  cs.foldl (fun s c => (putChunk s c).2) s

/-- Modelled from the spec: `Get` returns the subset present. -/
def getChunks (s : MCC) (hs : List Nat) : List (Nat × Chunk) :=
  hs.filterMap (fun h => (assocFind s.cache h).map (fun c => (h, c)))

/-- Modelled from the spec: `Has` returns the subset NOT present. -/
def hasAbsent (s : MCC) (hs : List Nat) : List Nat :=
  hs.filter (fun h => (assocFind s.cache h).isNone)

/-- Modelled from the spec: `GetAndClearChunksToFlush` returns all
pending chunks and clears the pending set. -/
def getAndClearChunksToFlush (s : MCC) : List (Nat × Chunk) × MCC :=
  (s.toFlush, ⟨s.cache, []⟩)

end Cache

namespace CAS

/-! The root compare-and-set and the `runRoot` command tail
(source `part_003` lines 56-125). `ChunkStore.Commit` itself is outside
the sources in scope. Modelled from the spec (§5): the commit updates
the root iff the current root equals the expected root, atomically; a
concurrent pair of commits is two such atomic steps in either order. -/

/-- A root hash. -/
abbrev RHash := Nat

/-- Modelled from the spec: `Commit(new, expected)` as an atomic CAS on
the root, returning the new root state and the success flag. -/
def commitCAS (root new expected : RHash) : RHash × Bool :=
  if root = expected then (new, true) else (root, false)

/-- The outcome of the tail of `runRoot` after `cs.Commit` returns. -/
structure RootResult where
  exitCode : Nat
  reportedOptimisticFailure : Bool
deriving DecidableEq

/-- The post-`Commit` branch of `runRoot` from the source: a commit
error exits 1; `ok = false` prints the optimistic concurrency failure
and exits 1; success exits 0. -/
def runRootFinish (ok : Bool) (err : Bool) : RootResult :=
  if err then ⟨1, false⟩
  else if !ok then ⟨1, true⟩
  else ⟨0, false⟩

end CAS

namespace Tup

/-! The `types.Tuple` ordering. Modelled from the spec: `Tuple.Less` is
outside the sources in scope; its test `TestTupleLess` (source
`part_001`) fixes the ordering: fields are compared in sequence, equal
tuples are not less, and a tuple that exhausts first is less. -/

/-- Modelled from the spec: `Tuple.Less` as the sequential field
comparison its test exhibits. -/
def tupleLess {α : Type} [LinearOrder α] : List α → List α → Bool
  | _, [] => false
  | [], _ :: _ => true
  | a :: xs, b :: ys =>
    if a < b then true
    else if b < a then false
    else tupleLess xs ys

end Tup

namespace AddrMap

/-! `AddressMap.Get` (source `part_003` lines 222-230). The underlying
`orderedTree.get` is outside the sources in scope; modelled from the
spec: the tree lookup invokes the callback with the found entry, or
with nil key and value when the name is absent, so the returned address
keeps its zero value. -/

/-- A 20-byte hash, as its list of bytes. -/
abbrev Hash20 := List Nat

/-- The zero-valued 20-byte hash. -/
def zeroHash : Hash20 := List.replicate 20 0

/-- Modelled from the spec: the ordered-tree lookup of a name. -/
def lookupName : List (String × Hash20) → String → Option Hash20
  | [], _ => none
  | (n, a) :: rest, q => if n = q then some a else lookupName rest q

/-- `AddressMap.Get` from the source: the callback copies the stored
address via `hash.New` when the key is present; otherwise the returned
hash keeps its zero value, and the error is nil either way. -/
def addressMapGet (m : List (String × Hash20)) (name : String) :
    Hash20 × Option Unit :=
  match lookupName m name with
  | some a => (a, none)
  | none => (zeroHash, none)

end AddrMap


namespace Prolly

theorem aboveStartAux_eq_spec (t : Tuple) (cuts : List RangeCut) (i : Nat) :
    aboveStartAux t cuts i =
      ((cuts.enumFrom i).findSome? (fun p => startVerdict p.2 (getField t p.1))).getD true := by
  induction cuts generalizing i with
  | nil => rfl
  | cons c rest ih =>
    by_cases h1 : c.nonBinding = true
    · have hv : startVerdict c (getField t i) = none := by simp [startVerdict, h1]
      simp [aboveStartAux, h1, List.enumFrom, List.findSome?_cons, hv, ih]
    · simp only [Bool.not_eq_true] at h1
      by_cases h2 : (c.null || (getField t i).isNone) = true
      · have hv : startVerdict c (getField t i) = some (c.null && (getField t i).isNone) := by
          simp [startVerdict, h1, h2]
        simp [aboveStartAux, h1, h2, List.enumFrom, List.findSome?_cons, hv]
      · simp only [Bool.not_eq_true] at h2
        by_cases h3 : (decide (compareVals c.value (getField t i) < 0) ||
            (c.inclusive && decide (compareVals c.value (getField t i) = 0))) = true
        · have hv : startVerdict c (getField t i) = none := by
            simp only [startVerdict, h1, Bool.false_eq_true, if_false, h2]
            simp only [Bool.or_eq_true, decide_eq_true_eq, Bool.and_eq_true] at h3
            simp [h3]
          simp [aboveStartAux, h1, h2, h3, List.enumFrom, List.findSome?_cons, hv, ih]
        · simp only [Bool.not_eq_true] at h3
          have hv : startVerdict c (getField t i) = some false := by
            simp only [startVerdict, h1, Bool.false_eq_true, if_false, h2]
            simp only [Bool.or_eq_false_iff, decide_eq_false_iff_not, Bool.and_eq_false_iff] at h3
            rcases h3 with ⟨h3l, h3r⟩
            rcases h3r with h3r | h3r
            · simp [h3l, h3r]
            · simp [h3l, h3r]
          simp [aboveStartAux, h1, h2, h3, List.enumFrom, List.findSome?_cons, hv]

theorem belowStopAux_eq_spec (t : Tuple) (cuts : List RangeCut) (i : Nat) :
    belowStopAux t cuts i =
      ((cuts.enumFrom i).findSome? (fun p => stopVerdict p.2 (getField t p.1))).getD true := by
  induction cuts generalizing i with
  | nil => rfl
  | cons c rest ih =>
    by_cases h1 : c.nonBinding = true
    · have hv : stopVerdict c (getField t i) = none := by simp [stopVerdict, h1]
      simp [belowStopAux, h1, List.enumFrom, List.findSome?_cons, hv, ih]
    · simp only [Bool.not_eq_true] at h1
      by_cases h2 : (c.null || (getField t i).isNone) = true
      · have hv : stopVerdict c (getField t i) = some (c.null && (getField t i).isNone) := by
          simp [stopVerdict, h1, h2]
        simp [belowStopAux, h1, h2, List.enumFrom, List.findSome?_cons, hv]
      · simp only [Bool.not_eq_true] at h2
        by_cases h3 : (decide (compareVals c.value (getField t i) > 0) ||
            (c.inclusive && decide (compareVals c.value (getField t i) = 0))) = true
        · have hv : stopVerdict c (getField t i) = none := by
            simp only [stopVerdict, h1, Bool.false_eq_true, if_false, h2]
            simp only [Bool.or_eq_true, decide_eq_true_eq, Bool.and_eq_true] at h3
            simp [h3]
          simp [belowStopAux, h1, h2, h3, List.enumFrom, List.findSome?_cons, hv, ih]
        · simp only [Bool.not_eq_true] at h3
          have hv : stopVerdict c (getField t i) = some false := by
            simp only [stopVerdict, h1, Bool.false_eq_true, if_false, h2]
            simp only [Bool.or_eq_false_iff, decide_eq_false_iff_not, Bool.and_eq_false_iff] at h3
            rcases h3 with ⟨h3l, h3r⟩
            rcases h3r with h3r | h3r
            · simp [h3l, h3r]
            · simp [h3l, h3r]
          simp [belowStopAux, h1, h2, h3, List.enumFrom, List.findSome?_cons, hv]

theorem getD_map_range {α : Type} (f : Nat → α) (d : α) (k i : Nat) (hi : i < k) :
    ((List.range k).map f).getD i d = f i := by
  rw [List.getD_eq_getElem?_getD]
  rw [List.getElem?_map]
  rw [List.getElem?_range hi]
  rfl

theorem lastExcl_length (l : List RangeCut) : (lastExcl l).length = l.length := by
  induction l with
  | nil => rfl
  | cons c rest ih =>
    cases rest with
    | nil => rfl
    | cons c2 rest2 => simp only [lastExcl, List.length_cons] at ih ⊢; omega

theorem lastExcl_getD_lt (l : List RangeCut) (i : Nat) (hi : i + 1 < l.length) :
    (lastExcl l).getD i nbCut = l.getD i nbCut := by
  induction l generalizing i with
  | nil => rfl
  | cons c rest ih =>
    cases rest with
    | nil => simp at hi
    | cons c2 rest2 =>
      cases i with
      | zero => rfl
      | succ j =>
        simp only [lastExcl, List.getD_cons_succ]
        exact ih j (by simpa using hi)

theorem lastExcl_getD_last (l : List RangeCut) (hl : l ≠ []) :
    (lastExcl l).getD (l.length - 1) nbCut =
      { l.getD (l.length - 1) nbCut with inclusive := false } := by
  induction l with
  | nil => exact absurd rfl hl
  | cons c rest ih =>
    cases rest with
    | nil => rfl
    | cons c2 rest2 =>
      have h2 : (c2 :: rest2 : List RangeCut) ≠ [] := by simp
      simp only [lastExcl, List.length_cons]
      have hlen : (c2 :: rest2 : List RangeCut).length = rest2.length + 1 := by simp
      simp only [Nat.add_sub_cancel, List.getD_cons_succ]
      have := ih h2
      simpa [hlen] using this

theorem inclusiveBound_inclVec (t : Tuple) (k : Nat) (hk : 1 ≤ k) :
    inclVec (inclusiveBound t k) k true := by
  refine ⟨by simp [inclusiveBound], ?_, ?_⟩
  · intro i hi
    unfold cutIncl inclusiveBound
    rw [getD_map_range _ _ _ _ (by omega)]
  · unfold cutIncl inclusiveBound
    rw [getD_map_range _ _ _ _ (by omega)]

theorem exclusiveBound_inclVec (t : Tuple) (k : Nat) (hk : 1 ≤ k) :
    inclVec (exclusiveBound t k) k false := by
  have hlen : (inclusiveBound t k).length = k := by simp [inclusiveBound]
  refine ⟨by simp [exclusiveBound, lastExcl_length, hlen], ?_, ?_⟩
  · intro i hi
    unfold cutIncl exclusiveBound
    rw [lastExcl_getD_lt _ _ (by rw [hlen]; omega)]
    unfold inclusiveBound
    rw [getD_map_range _ _ _ _ (by omega)]
  · unfold cutIncl exclusiveBound
    have hne : inclusiveBound t k ≠ [] := by
      intro h
      rw [h] at hlen
      simp at hlen
      omega
    have := lastExcl_getD_last (inclusiveBound t k) hne
    rw [hlen] at this
    rw [this]


/-! Generic facts about the insertion sort embedding. -/

theorem bubble_perm {α : Type} (less : α → α → Bool) (x : α) (l : List α) :
    (bubble less x l).Perm (x :: l) := by
  induction l with
  | nil => exact List.Perm.refl _
  | cons y ys ih =>
    by_cases h : less x y = true
    · simp only [bubble, h, if_true]
      exact (ih.cons y).trans (List.Perm.swap x y ys)
    · simp only [bubble, h, if_false]
      exact List.Perm.refl _

theorem insSortAux_perm {α : Type} (less : α → α → Bool) (l acc : List α) :
    (insSortAux less acc l).Perm (acc ++ l) := by
  induction l generalizing acc with
  | nil => simp [insSortAux]
  | cons x xs ih =>
    have h1 := ih (bubble less x acc)
    have h2 : (bubble less x acc ++ xs).Perm ((x :: acc) ++ xs) :=
      (bubble_perm less x acc).append_right xs
    have h3 : ((x :: acc) ++ xs).Perm (acc ++ x :: xs) := List.perm_middle.symm
    exact (h1.trans h2).trans h3

theorem insSort_perm {α : Type} (less : α → α → Bool) (l : List α) :
    (insSort less l).Perm l := by
  unfold insSort
  exact (List.reverse_perm _).trans (by simpa using insSortAux_perm less l [])

theorem bubble_mem {α : Type} (less : α → α → Bool) (x : α) (l : List α) (z : α) :
    z ∈ bubble less x l ↔ z = x ∨ z ∈ l :=
  by simpa using (bubble_perm less x l).mem_iff

/-! Sortedness of the insertion sort under the interval order. -/

theorem bubble_revSorted (x : Iv) (acc : List Iv)
    (h : List.Pairwise (fun p q : Iv => q.1 ≤ p.1) acc) :
    List.Pairwise (fun p q : Iv => q.1 ≤ p.1) (bubble ivLess x acc) := by
  induction acc with
  | nil => simp [bubble]
  | cons y ys ih =>
    rcases List.pairwise_cons.mp h with ⟨hy, hys⟩
    by_cases hl : ivLess x y = true
    · simp only [bubble, hl, if_true]
      refine List.pairwise_cons.mpr ⟨?_, ih hys⟩
      intro z hz
      rcases (bubble_mem ivLess x ys z).mp hz with rfl | hz
      · exact le_of_lt (by simpa [ivLess] using hl)
      · exact hy z hz
    · simp only [bubble, hl, if_false]
      refine List.pairwise_cons.mpr ⟨?_, h⟩
      intro z hz
      have hyx : y.1 ≤ x.1 := by simpa [ivLess] using hl
      rcases hz with _ | hz
      · exact hyx
      · exact le_trans (hy z (by assumption)) hyx

theorem insSortAux_revSorted (l acc : List Iv)
    (h : List.Pairwise (fun p q : Iv => q.1 ≤ p.1) acc) :
    List.Pairwise (fun p q : Iv => q.1 ≤ p.1) (insSortAux ivLess acc l) := by
  induction l generalizing acc with
  | nil => exact h
  | cons x xs ih => exact ih _ (bubble_revSorted x acc h)

theorem insSort_sorted (l : List Iv) :
    List.Pairwise (fun p q : Iv => p.1 ≤ q.1) (insSort ivLess l) := by
  unfold insSort
  rw [List.pairwise_reverse]
  exact insSortAux_revSorted l [] (by simp)

/-! Correctness of the accumulator loop on sorted nonempty intervals. -/

theorem ivOverlaps_true_iff (x y : Iv) :
    ivOverlaps x y = true ↔ (y.1 ≤ x.2 ∧ x.1 ≤ y.2) := by
  simp only [ivOverlaps, Bool.and_eq_true, Bool.not_eq_true', decide_eq_false_iff_not, not_lt]

theorem ivOverlaps_false_iff (x y : Iv) :
    ivOverlaps x y = false ↔ (x.2 < y.1 ∨ y.2 < x.1) := by
  rw [← Bool.not_eq_true, ivOverlaps_true_iff]
  omega

theorem ivMerge_mem (x y : Iv) (v : Int) (hxy : x.1 ≤ y.1)
    (hov : ivOverlaps x y = true) (hx : x.1 ≤ x.2) (hy : y.1 ≤ y.2) :
    (ivMem v (ivMerge x y) = true) ↔ (ivMem v x = true ∨ ivMem v y = true) := by
  rw [ivOverlaps_true_iff] at hov
  simp only [ivMem, ivMerge, Bool.and_eq_true, decide_eq_true_eq, le_min_iff,
    min_le_iff, le_max_iff, max_le_iff]
  omega

theorem ivMergeAcc_mem_lower (l : List Iv) (acc : Iv)
    (hacc : ∀ r ∈ l, acc.1 ≤ r.1)
    (hsort : List.Pairwise (fun p q : Iv => p.1 ≤ q.1) l) :
    ∀ m ∈ ivMergeAcc acc l, acc.1 ≤ m.1 := by
  induction l generalizing acc with
  | nil =>
    intro m hm
    simp only [ivMergeAcc, List.mem_singleton] at hm
    simp [hm]
  | cons r rest ih =>
    rcases List.pairwise_cons.mp hsort with ⟨hr, hrest⟩
    intro m hm
    by_cases hov : ivOverlaps acc r = true
    · simp only [ivMergeAcc, hov, if_true] at hm
      have h1 : ∀ s ∈ rest, (ivMerge acc r).1 ≤ s.1 := fun s hs =>
        le_trans (min_le_left _ _) (hacc s (List.mem_cons_of_mem _ hs))
      have h2 := ih (ivMerge acc r) h1 hrest m hm
      have h3 : acc.1 ≤ (ivMerge acc r).1 := by
        simp only [ivMerge, le_min_iff]
        exact ⟨le_refl _, hacc r (List.mem_cons_self _ _)⟩
      exact le_trans h3 h2
    · simp only [Bool.not_eq_true] at hov
      simp only [ivMergeAcc, hov, Bool.false_eq_true, if_false, List.mem_cons] at hm
      rcases hm with h | hm
      · rw [h]
      · exact le_trans (hacc r (List.mem_cons_self _ _)) (ih r hr hrest m hm)

theorem ivMergeAcc_disjoint (l : List Iv) (acc : Iv)
    (hneA : acc.1 ≤ acc.2) (hne : ∀ r ∈ l, r.1 ≤ r.2)
    (hacc : ∀ r ∈ l, acc.1 ≤ r.1)
    (hsort : List.Pairwise (fun p q : Iv => p.1 ≤ q.1) l) :
    List.Pairwise (fun p q : Iv => ivOverlaps p q = false) (ivMergeAcc acc l) := by
  induction l generalizing acc with
  | nil => simp [ivMergeAcc]
  | cons r rest ih =>
    rcases List.pairwise_cons.mp hsort with ⟨hr, hrest⟩
    have hner : r.1 ≤ r.2 := hne r (List.mem_cons_self _ _)
    have haccr : acc.1 ≤ r.1 := hacc r (List.mem_cons_self _ _)
    by_cases hov : ivOverlaps acc r = true
    · simp only [ivMergeAcc, hov, if_true]
      refine ih (ivMerge acc r) ?_ (fun s hs => hne s (List.mem_cons_of_mem _ hs)) ?_ hrest
      · exact le_trans (le_trans (min_le_left _ _) hneA) (le_max_left _ _)
      · intro s hs
        exact le_trans (min_le_left _ _) (hacc s (List.mem_cons_of_mem _ hs))
    · simp only [Bool.not_eq_true] at hov
      simp only [ivMergeAcc, hov, Bool.false_eq_true, if_false]
      refine List.pairwise_cons.mpr
        ⟨?_, ih r hner (fun s hs => hne s (List.mem_cons_of_mem _ hs)) hr hrest⟩
      intro m hm
      have hsep : acc.2 < r.1 := by
        rcases (ivOverlaps_false_iff acc r).mp hov with h | h
        · exact h
        · omega
      have hml := ivMergeAcc_mem_lower rest r hr hrest m hm
      rw [ivOverlaps_false_iff]
      left
      omega

theorem ivMergeAcc_coverage (l : List Iv) (acc : Iv) (v : Int)
    (hneA : acc.1 ≤ acc.2) (hne : ∀ r ∈ l, r.1 ≤ r.2)
    (hacc : ∀ r ∈ l, acc.1 ≤ r.1)
    (hsort : List.Pairwise (fun p q : Iv => p.1 ≤ q.1) l) :
    (∃ m ∈ ivMergeAcc acc l, ivMem v m = true) ↔
      (ivMem v acc = true ∨ ∃ r ∈ l, ivMem v r = true) := by
  induction l generalizing acc with
  | nil => simp [ivMergeAcc]
  | cons r rest ih =>
    rcases List.pairwise_cons.mp hsort with ⟨hr, hrest⟩
    have hner : r.1 ≤ r.2 := hne r (List.mem_cons_self _ _)
    have haccr : acc.1 ≤ r.1 := hacc r (List.mem_cons_self _ _)
    by_cases hov : ivOverlaps acc r = true
    · simp only [ivMergeAcc, hov, if_true]
      have hmrg : (ivMerge acc r).1 ≤ (ivMerge acc r).2 :=
        le_trans (le_trans (min_le_left _ _) hneA) (le_max_left _ _)
      have h1 : ∀ s ∈ rest, (ivMerge acc r).1 ≤ s.1 := fun s hs =>
        le_trans (min_le_left _ _) (hacc s (List.mem_cons_of_mem _ hs))
      rw [ih (ivMerge acc r) hmrg (fun s hs => hne s (List.mem_cons_of_mem _ hs)) h1 hrest]
      constructor
      · rintro (hmem | ⟨s, hs, hmem⟩)
        · rcases (ivMerge_mem acc r v haccr hov hneA hner).mp hmem with h | h
          · exact Or.inl h
          · exact Or.inr ⟨r, List.mem_cons_self _ _, h⟩
        · exact Or.inr ⟨s, List.mem_cons_of_mem _ hs, hmem⟩
      · rintro (hmem | ⟨s, hs, hmem⟩)
        · exact Or.inl ((ivMerge_mem acc r v haccr hov hneA hner).mpr (Or.inl hmem))
        · rcases List.mem_cons.mp hs with h | hs
          · exact Or.inl ((ivMerge_mem acc r v haccr hov hneA hner).mpr (Or.inr (h ▸ hmem)))
          · exact Or.inr ⟨s, hs, hmem⟩
    · simp only [Bool.not_eq_true] at hov
      simp only [ivMergeAcc, hov, Bool.false_eq_true, if_false]
      have ihr := ih r hner (fun s hs => hne s (List.mem_cons_of_mem _ hs)) hr hrest
      constructor
      · rintro ⟨m, hm, hmem⟩
        rcases List.mem_cons.mp hm with h | hm
        · exact Or.inl (h ▸ hmem)
        · rcases ihr.mp ⟨m, hm, hmem⟩ with h | ⟨s, hs, hmem2⟩
          · exact Or.inr ⟨r, List.mem_cons_self _ _, h⟩
          · exact Or.inr ⟨s, List.mem_cons_of_mem _ hs, hmem2⟩
      · rintro (hmem | ⟨s, hs, hmem⟩)
        · exact ⟨acc, List.mem_cons_self _ _, hmem⟩
        · rcases List.mem_cons.mp hs with h | hs
          · rcases ihr.mpr (Or.inl (h ▸ hmem)) with ⟨m, hm, hmem2⟩
            exact ⟨m, List.mem_cons_of_mem _ hm, hmem2⟩
          · rcases ihr.mpr (Or.inr ⟨s, hs, hmem⟩) with ⟨m, hm, hmem2⟩
            exact ⟨m, List.mem_cons_of_mem _ hm, hmem2⟩


/-! Simulation: on simple ranges the source operations compute the
interval operations. -/

theorem abstr_simpleRange (a b : Int) : abstr (simpleRange a b) = (a, b) := rfl

theorem simpleB_simpleRange (a b : Int) :
    simpleB (simpleRange a b) = decide (a ≤ b) := by
  simp [simpleB, simpleRange]

theorem simpleB_elim (r : PRange) (h : simpleB r = true) :
    ∃ a b : Int, a ≤ b ∧ r = simpleRange a b := by
  obtain ⟨st, sp⟩ := r
  cases st with
  | nil => simp [simpleB] at h
  | cons cs st2 =>
    cases st2 with
    | cons c2 st3 => simp [simpleB] at h
    | nil =>
      cases sp with
      | nil => simp [simpleB] at h
      | cons ct sp2 =>
        cases sp2 with
        | cons c3 sp3 => simp [simpleB] at h
        | nil =>
          cases hcv : cs.value with
          | none => simp only [simpleB] at h; rw [hcv] at h; simp at h
          | some a =>
            cases hct : ct.value with
            | none => simp only [simpleB] at h; rw [hcv, hct] at h; simp at h
            | some b =>
              simp only [simpleB] at h
              rw [hcv, hct] at h
              simp only [Bool.and_eq_true, Bool.not_eq_true', decide_eq_true_eq] at h
              obtain ⟨⟨⟨⟨hi1, hn1⟩, hi2⟩, hn2⟩, hab⟩ := h
              refine ⟨a, b, hab, ?_⟩
              obtain ⟨v1, i1, n1⟩ := cs
              obtain ⟨v2, i2, n2⟩ := ct
              simp only at hcv hct hi1 hn1 hi2 hn2
              simp [simpleRange, hcv, hct, hi1, hn1, hi2, hn2]

theorem cmpI_lt (a w : Int) (h : a < w) : cmpI a w = -1 := by simp [cmpI, h]

theorem cmpI_eq (a : Int) : cmpI a a = 0 := by simp [cmpI]

theorem cmpI_gt (a w : Int) (h : w < a) : cmpI a w = 1 := by
  have h1 : ¬(a < w) := not_lt.mpr (le_of_lt h)
  have h2 : ¬(a = w) := ne_of_gt h
  simp [cmpI, h1, h2]

theorem less_simpleCut (a c : Int) :
    RangeCut.less ⟨some a, true, false⟩ ⟨some c, true, false⟩ = decide (a < c) := by
  simp only [RangeCut.less, RangeCut.nonBinding, compareVals, Option.isNone_some,
    Option.getD_some, Bool.false_or, Bool.or_false, Bool.and_false, Bool.false_and,
    Bool.not_true, Bool.or_self, Bool.false_eq_true, if_false]
  rcases lt_trichotomy a c with h | h | h
  · simp only [cmpI_lt a c h]
    have h0 : ¬((-1 : Int) = 0) := by decide
    simp [h0, h]
  · subst h
    simp only [cmpI_eq a]
    simp
  · simp only [cmpI_gt a c h]
    have h0 : ¬((1 : Int) = 0) := by decide
    have h1 : ¬((1 : Int) < 0) := by decide
    simp [h0, h1, not_lt.mpr (le_of_lt h)]

theorem rless_simple (a b c d : Int) :
    (simpleRange a b).rless (simpleRange c d) = ivLess (a, b) (c, d) := by
  simp [PRange.rless, simpleRange, ivLess, less_simpleCut]

theorem overlaps_simple (a b c d : Int) :
    (simpleRange a b).overlaps (simpleRange c d) = ivOverlaps (a, b) (c, d) := by
  simp [PRange.overlaps, simpleRange, cut0, ivOverlaps, less_simpleCut]

theorem merge_simple (a b c d : Int) :
    (simpleRange a b).merge (simpleRange c d) = simpleRange (min a c) (max b d) := by
  simp only [PRange.merge, simpleRange, List.zip_cons_cons, List.zip_nil_right,
    List.map_cons, List.map_nil, mergeLower, mergeUpper, RangeCut.nonBinding,
    Option.isNone_some, Bool.false_and, Bool.or_self, Bool.false_eq_true, if_false,
    less_simpleCut, PRange.mk.injEq, List.cons.injEq, and_true]
  constructor
  · by_cases h : c < a
    · simp [h, min_def, le_of_lt h, not_le.mpr h]
    · simp [h, min_def, not_lt.mp h]
  · by_cases h : d < b
    · simp [h, max_def, le_of_lt h, not_le.mpr h]
    · simp [h, max_def, not_lt.mp h]

theorem aboveStartAux_single (a : Int) (t : Tuple) (i : Nat) :
    aboveStartAux t [⟨some a, true, false⟩] i =
      ((getField t i).map (fun w => decide (a ≤ w))).getD false := by
  cases hv : getField t i with
  | none => simp [aboveStartAux, RangeCut.nonBinding, hv]
  | some w =>
    simp only [aboveStartAux, RangeCut.nonBinding, Option.isNone_some, Bool.false_and,
      Bool.or_self, Bool.false_eq_true, if_false, hv, Bool.false_or, compareVals,
      Option.getD_some, Option.map_some, Bool.true_and]
    rcases lt_trichotomy a w with h | h | h
    · simp only [cmpI_lt a w h]
      have h0 : ((-1 : Int) < 0) := by decide
      simp [h0, le_of_lt h, aboveStartAux]
    · subst h
      simp only [cmpI_eq a]
      simp [aboveStartAux]
    · simp only [cmpI_gt a w h]
      have h0 : ¬((1 : Int) < 0) := by decide
      have h1 : ¬((1 : Int) = 0) := by decide
      simp [h0, h1, not_le.mpr h]

theorem belowStopAux_single (b : Int) (t : Tuple) (i : Nat) :
    belowStopAux t [⟨some b, true, false⟩] i =
      ((getField t i).map (fun w => decide (w ≤ b))).getD false := by
  cases hv : getField t i with
  | none => simp [belowStopAux, RangeCut.nonBinding, hv]
  | some w =>
    simp only [belowStopAux, RangeCut.nonBinding, Option.isNone_some, Bool.false_and,
      Bool.or_self, Bool.false_eq_true, if_false, hv, Bool.false_or, compareVals,
      Option.getD_some, Option.map_some, Bool.true_and]
    rcases lt_trichotomy b w with h | h | h
    · simp only [cmpI_lt b w h]
      have h0 : ¬((0 : Int) < -1) := by decide
      have h1 : ¬((-1 : Int) = 0) := by decide
      simp [h0, h1, not_le.mpr h]
    · subst h
      simp only [cmpI_eq b]
      simp [belowStopAux]
    · simp only [cmpI_gt b w h]
      have h0 : ((0 : Int) < 1) := by decide
      simp [h0, le_of_lt h, belowStopAux]

theorem admits_simple (a b : Int) (t : Tuple) :
    (simpleRange a b).admits t = ivMemF (a, b) (getField t 0) := by
  rw [PRange.admits]
  rw [show (simpleRange a b).aboveStart t = aboveStartAux t [⟨some a, true, false⟩] 0 from rfl]
  rw [show (simpleRange a b).belowStop t = belowStopAux t [⟨some b, true, false⟩] 0 from rfl]
  rw [aboveStartAux_single, belowStopAux_single]
  cases hv : getField t 0 with
  | none => simp [ivMemF]
  | some w => simp [ivMemF, ivMem]


/-! List-level simulation of sorting and merging on simple ranges. -/

theorem bubble_sim (x : PRange) (acc : List PRange) (hx : simpleB x = true)
    (hacc : ∀ r ∈ acc, simpleB r = true) :
    (bubble PRange.rless x acc).map abstr = bubble ivLess (abstr x) (acc.map abstr) := by
  induction acc with
  | nil => rfl
  | cons y ys ih =>
    have hy := hacc y (List.mem_cons_self _ _)
    have hys : ∀ r ∈ ys, simpleB r = true := fun r hr => hacc r (List.mem_cons_of_mem _ hr)
    obtain ⟨a, b, hab, hxe⟩ := simpleB_elim x hx
    obtain ⟨c, d, hcd, hye⟩ := simpleB_elim y hy
    have hrl : x.rless y = ivLess (abstr x) (abstr y) := by
      rw [hxe, hye, rless_simple, abstr_simpleRange, abstr_simpleRange]
    by_cases h : x.rless y = true
    · have h2 : ivLess (abstr x) (abstr y) = true := by rw [← hrl]; exact h
      simp only [bubble, List.map_cons, h, h2, if_true]
      rw [ih hys]
    · have h2 : ¬ (ivLess (abstr x) (abstr y) = true) := by rw [← hrl]; exact h
      simp only [bubble, List.map_cons, h, h2, Bool.false_eq_true, if_false]

theorem insSortAux_sim (l : List PRange) (acc : List PRange)
    (hl : ∀ r ∈ l, simpleB r = true) (hacc : ∀ r ∈ acc, simpleB r = true) :
    (insSortAux PRange.rless acc l).map abstr =
      insSortAux ivLess (acc.map abstr) (l.map abstr) := by
  induction l generalizing acc with
  | nil => rfl
  | cons x xs ih =>
    have hx := hl x (List.mem_cons_self _ _)
    have hxs : ∀ r ∈ xs, simpleB r = true := fun r hr => hl r (List.mem_cons_of_mem _ hr)
    have hb : ∀ r ∈ bubble PRange.rless x acc, simpleB r = true := by
      intro r hr
      rcases (bubble_mem PRange.rless x acc r).mp hr with rfl | hr
      · exact hx
      · exact hacc r hr
    simp only [insSortAux, List.map_cons]
    rw [ih (bubble PRange.rless x acc) hxs hb, bubble_sim x acc hx hacc]

theorem sortRanges_sim (rs : List PRange) (hs : ∀ r ∈ rs, simpleB r = true) :
    (SortRanges rs).map abstr = insSort ivLess (rs.map abstr) := by
  unfold SortRanges insSort
  rw [List.map_reverse]
  rw [insSortAux_sim rs [] hs (by simp)]
  rfl

theorem admits_eq_ivMemF (r : PRange) (h : simpleB r = true) (t : Tuple) :
    r.admits t = ivMemF (abstr r) (getField t 0) := by
  obtain ⟨a, b, hab, he⟩ := simpleB_elim r h
  rw [he, admits_simple, abstr_simpleRange]

theorem overlaps_eq_iv (r s : PRange) (hr : simpleB r = true) (hs : simpleB s = true) :
    r.overlaps s = ivOverlaps (abstr r) (abstr s) := by
  obtain ⟨a, b, hab, he1⟩ := simpleB_elim r hr
  obtain ⟨c, d, hcd, he2⟩ := simpleB_elim s hs
  rw [he1, he2, overlaps_simple, abstr_simpleRange, abstr_simpleRange]

theorem abstr_nonempty (r : PRange) (h : simpleB r = true) :
    (abstr r).1 ≤ (abstr r).2 := by
  obtain ⟨a, b, hab, he⟩ := simpleB_elim r h
  rw [he, abstr_simpleRange]
  exact hab

theorem mergeAcc_sim (l : List PRange) (acc : PRange) (hacc : simpleB acc = true)
    (hl : ∀ r ∈ l, simpleB r = true) :
    (mergeAcc acc l).map abstr = ivMergeAcc (abstr acc) (l.map abstr) ∧
    (∀ m ∈ mergeAcc acc l, simpleB m = true) := by
  induction l generalizing acc with
  | nil =>
    refine ⟨rfl, ?_⟩
    intro m hm
    simp only [mergeAcc, List.mem_singleton] at hm
    rw [hm]
    exact hacc
  | cons r rest ih =>
    have hr := hl r (List.mem_cons_self _ _)
    have hrest : ∀ s ∈ rest, simpleB s = true := fun s hs => hl s (List.mem_cons_of_mem _ hs)
    have hov : acc.overlaps r = ivOverlaps (abstr acc) (abstr r) := overlaps_eq_iv acc r hacc hr
    obtain ⟨a, b, hab, he1⟩ := simpleB_elim acc hacc
    obtain ⟨c, d, hcd, he2⟩ := simpleB_elim r hr
    by_cases h : acc.overlaps r = true
    · have h2 : ivOverlaps (abstr acc) (abstr r) = true := by rw [← hov]; exact h
      have hmrg : acc.merge r = simpleRange (min a c) (max b d) := by
        rw [he1, he2, merge_simple]
      have hmrgB : simpleB (acc.merge r) = true := by
        rw [hmrg, simpleB_simpleRange]
        have : min a c ≤ max b d := le_trans (le_trans (min_le_left _ _) hab) (le_max_left _ _)
        simpa using this
      have ihm := ih (acc.merge r) hmrgB hrest
      have hAbs : abstr (acc.merge r) = ivMerge (abstr acc) (abstr r) := by
        rw [hmrg, abstr_simpleRange, he1, he2, abstr_simpleRange, abstr_simpleRange]
        rfl
      refine ⟨?_, ?_⟩
      · simp only [mergeAcc, h, if_true, List.map_cons]
        rw [ihm.1, hAbs]
        simp only [ivMergeAcc, h2, if_true]
      · intro m hm
        simp only [mergeAcc, h, if_true] at hm
        exact ihm.2 m hm
    · have h2 : ¬ (ivOverlaps (abstr acc) (abstr r) = true) := by rw [← hov]; exact h
      have ihm := ih r hr hrest
      refine ⟨?_, ?_⟩
      · simp only [mergeAcc, h, Bool.false_eq_true, if_false, List.map_cons]
        rw [ihm.1]
        simp only [ivMergeAcc, h2, Bool.false_eq_true, if_false]
      · intro m hm
        simp only [mergeAcc, h, Bool.false_eq_true, if_false, List.mem_cons] at hm
        rcases hm with hm | hm
        · rw [hm]; exact hacc
        · exact ihm.2 m hm

theorem exists_admits_iff_iv (l : List PRange) (hl : ∀ r ∈ l, simpleB r = true)
    (w : Int) (t : Tuple) (hv : getField t 0 = some w) :
    (∃ m ∈ l, m.admits t = true) ↔ (∃ mi ∈ l.map abstr, ivMem w mi = true) := by
  constructor
  · rintro ⟨m, hm, hmem⟩
    refine ⟨abstr m, List.mem_map_of_mem _ hm, ?_⟩
    rw [admits_eq_ivMemF m (hl m hm) t, hv] at hmem
    exact hmem
  · rintro ⟨mi, hmi, hmem⟩
    rcases List.mem_map.mp hmi with ⟨m, hm, he⟩
    refine ⟨m, hm, ?_⟩
    rw [admits_eq_ivMemF m (hl m hm) t, hv, he]
    exact hmem

theorem no_admits_of_null (l : List PRange) (hl : ∀ r ∈ l, simpleB r = true)
    (t : Tuple) (hv : getField t 0 = none) :
    ¬ (∃ m ∈ l, m.admits t = true) := by
  rintro ⟨m, hm, hmem⟩
  rw [admits_eq_ivMemF m (hl m hm) t, hv] at hmem
  simp [ivMemF] at hmem

end Prolly

/-- C1: for every Range `r` and tuple `t`, `r` admits `t` iff
`AboveStart(t)` and `BelowStop(t)` both hold, each phase evaluated column
by column: a nonBinding cut skips its column, a Null cut is satisfied
only when the field of the tuple is NULL (NULL fields never satisfying a
value bound, NULLs being ordered apart), and the first column whose cut
discriminates decides the result of that phase. -/
theorem claim_C1_range_admits (r : Prolly.PRange) (t : Prolly.Tuple) :
    r.admits t = (Prolly.specAboveStart r.start t && Prolly.specBelowStop r.stop t) := by
  unfold Prolly.PRange.admits Prolly.PRange.aboveStart Prolly.PRange.belowStop
    Prolly.specAboveStart Prolly.specBelowStop
  rw [Prolly.aboveStartAux_eq_spec, Prolly.belowStopAux_eq_spec]
  rfl

/-- C5: for every pair of bounding tuples and descriptor with `k ≥ 1`
columns, each of the eight range constructors produces a Range whose
present bound vectors have `k` cuts, mark columns `0..k-2` inclusive,
and set the inclusivity of column `k-1` according to the name of the
constructor: inclusive for the OrEqual/Closed variants and for the
closed side of the half-open variants, exclusive otherwise. -/
theorem claim_C5_constructor_bounds (t1 t2 : Prolly.Tuple) (k : Nat) (hk : 1 ≤ k) :
    Prolly.inclVec (Prolly.GreaterRange t1 k).start k false ∧
    (Prolly.GreaterRange t1 k).stop = [] ∧
    Prolly.inclVec (Prolly.GreaterOrEqualRange t1 k).start k true ∧
    (Prolly.GreaterOrEqualRange t1 k).stop = [] ∧
    (Prolly.LesserRange t2 k).start = [] ∧
    Prolly.inclVec (Prolly.LesserRange t2 k).stop k false ∧
    (Prolly.LesserOrEqualRange t2 k).start = [] ∧
    Prolly.inclVec (Prolly.LesserOrEqualRange t2 k).stop k true ∧
    Prolly.inclVec (Prolly.OpenRange t1 t2 k).start k false ∧
    Prolly.inclVec (Prolly.OpenRange t1 t2 k).stop k false ∧
    Prolly.inclVec (Prolly.OpenStartRange t1 t2 k).start k false ∧
    Prolly.inclVec (Prolly.OpenStartRange t1 t2 k).stop k true ∧
    Prolly.inclVec (Prolly.OpenStopRange t1 t2 k).start k true ∧
    Prolly.inclVec (Prolly.OpenStopRange t1 t2 k).stop k false ∧
    Prolly.inclVec (Prolly.ClosedRange t1 t2 k).start k true ∧
    Prolly.inclVec (Prolly.ClosedRange t1 t2 k).stop k true :=
  ⟨Prolly.exclusiveBound_inclVec t1 k hk, rfl,
   Prolly.inclusiveBound_inclVec t1 k hk, rfl,
   rfl, Prolly.exclusiveBound_inclVec t2 k hk,
   rfl, Prolly.inclusiveBound_inclVec t2 k hk,
   Prolly.exclusiveBound_inclVec t1 k hk, Prolly.exclusiveBound_inclVec t2 k hk,
   Prolly.exclusiveBound_inclVec t1 k hk, Prolly.inclusiveBound_inclVec t2 k hk,
   Prolly.inclusiveBound_inclVec t1 k hk, Prolly.exclusiveBound_inclVec t2 k hk,
   Prolly.inclusiveBound_inclVec t1 k hk, Prolly.inclusiveBound_inclVec t2 k hk⟩

/-- Witness for C5 at a concrete two-column descriptor and tuples. -/
theorem claim_C5_constructor_bounds_witness :
    1 ≤ 2 ∧
    (Prolly.inclVec (Prolly.GreaterRange [some 3, some 4] 2).start 2 false ∧
    (Prolly.GreaterRange [some 3, some 4] 2).stop = [] ∧
    Prolly.inclVec (Prolly.GreaterOrEqualRange [some 3, some 4] 2).start 2 true ∧
    (Prolly.GreaterOrEqualRange [some 3, some 4] 2).stop = [] ∧
    (Prolly.LesserRange [some 7, some 8] 2).start = [] ∧
    Prolly.inclVec (Prolly.LesserRange [some 7, some 8] 2).stop 2 false ∧
    (Prolly.LesserOrEqualRange [some 7, some 8] 2).start = [] ∧
    Prolly.inclVec (Prolly.LesserOrEqualRange [some 7, some 8] 2).stop 2 true ∧
    Prolly.inclVec (Prolly.OpenRange [some 3, some 4] [some 7, some 8] 2).start 2 false ∧
    Prolly.inclVec (Prolly.OpenRange [some 3, some 4] [some 7, some 8] 2).stop 2 false ∧
    Prolly.inclVec (Prolly.OpenStartRange [some 3, some 4] [some 7, some 8] 2).start 2 false ∧
    Prolly.inclVec (Prolly.OpenStartRange [some 3, some 4] [some 7, some 8] 2).stop 2 true ∧
    Prolly.inclVec (Prolly.OpenStopRange [some 3, some 4] [some 7, some 8] 2).start 2 true ∧
    Prolly.inclVec (Prolly.OpenStopRange [some 3, some 4] [some 7, some 8] 2).stop 2 false ∧
    Prolly.inclVec (Prolly.ClosedRange [some 3, some 4] [some 7, some 8] 2).start 2 true ∧
    Prolly.inclVec (Prolly.ClosedRange [some 3, some 4] [some 7, some 8] 2).stop 2 true) :=
  ⟨by omega, claim_C5_constructor_bounds [some 3, some 4] [some 7, some 8] 2 (by omega)⟩

/-- C2, claim as stated is false: with the single-column ranges
`[1, 5)` (stop exclusive) and `[2, 5]` (stop inclusive), the ranges
overlap on column 0, yet the merged range `[1, 5)` no longer admits the
tuple `(5)` that the second input range admits: the merged ranges do not
cover the same tuple set as the union of the inputs. -/
theorem claim_C2_counterexample :
    (∃ r ∈ [(⟨[⟨some 1, true, false⟩], [⟨some 5, false, false⟩]⟩ : Prolly.PRange),
            (⟨[⟨some 2, true, false⟩], [⟨some 5, true, false⟩]⟩ : Prolly.PRange)],
        r.admits [some 5] = true) ∧
    (∀ m ∈ Prolly.MergeOverlappingRanges
        [(⟨[⟨some 1, true, false⟩], [⟨some 5, false, false⟩]⟩ : Prolly.PRange),
         (⟨[⟨some 2, true, false⟩], [⟨some 5, true, false⟩]⟩ : Prolly.PRange)],
        m.admits [some 5] = false) := by
  decide

/-- C2 amended: restricted to single-column ranges whose start and stop
cuts are binding, non-null, inclusive value cuts bounding a nonempty
interval, `MergeOverlappingRanges` returns ranges that admit exactly the
same tuples as the union of the inputs and that are pairwise
non-overlapping in the column-0 sense of `Range.overlaps`. -/
theorem claim_C2_merge_ranges (rs : List Prolly.PRange)
    (hs : ∀ r ∈ rs, Prolly.simpleB r = true) :
    (∀ t : Prolly.Tuple,
      (∃ m ∈ Prolly.MergeOverlappingRanges rs, m.admits t = true) ↔
        (∃ r ∈ rs, r.admits t = true)) ∧
    List.Pairwise (fun x y => Prolly.PRange.overlaps x y = false)
      (Prolly.MergeOverlappingRanges rs) := by
  by_cases hlen : rs.length ≤ 1
  · have hE : Prolly.MergeOverlappingRanges rs = rs := by
      unfold Prolly.MergeOverlappingRanges
      rw [if_pos hlen]
    rw [hE]
    refine ⟨fun t => Iff.rfl, ?_⟩
    cases rs with
    | nil => exact List.Pairwise.nil
    | cons r tail =>
      cases tail with
      | nil => exact List.pairwise_singleton _ _
      | cons r2 t2 => simp at hlen
  · have hperm : (Prolly.SortRanges rs).Perm rs := Prolly.insSort_perm _ rs
    have hSsimple : ∀ r ∈ Prolly.SortRanges rs, Prolly.simpleB r = true :=
      fun r hr => hs r (hperm.subset hr)
    obtain ⟨r0, rest, hS⟩ : ∃ r0 rest, Prolly.SortRanges rs = r0 :: rest := by
      cases hSs : Prolly.SortRanges rs with
      | nil =>
        exfalso
        have hl := hperm.length_eq
        rw [hSs] at hl
        simp at hl
        rw [← hl] at hlen
        simp at hlen
      | cons a l => exact ⟨a, l, rfl⟩
    have hMOR : Prolly.MergeOverlappingRanges rs = Prolly.mergeAcc r0 rest := by
      unfold Prolly.MergeOverlappingRanges
      rw [if_neg hlen, hS]
    have hr0 : Prolly.simpleB r0 = true :=
      hSsimple r0 (by rw [hS]; exact List.mem_cons_self _ _)
    have hrest : ∀ r ∈ rest, Prolly.simpleB r = true :=
      fun r hr => hSsimple r (by rw [hS]; exact List.mem_cons_of_mem _ hr)
    have hsorted : List.Pairwise (fun p q : Prolly.Iv => p.1 ≤ q.1)
        (Prolly.abstr r0 :: rest.map Prolly.abstr) := by
      have h1 := Prolly.insSort_sorted (rs.map Prolly.abstr)
      rw [← Prolly.sortRanges_sim rs hs] at h1
      rw [hS] at h1
      simpa using h1
    have haccStarts : ∀ x ∈ rest.map Prolly.abstr, (Prolly.abstr r0).1 ≤ x.1 :=
      (List.pairwise_cons.mp hsorted).1
    have hsortTail : List.Pairwise (fun p q : Prolly.Iv => p.1 ≤ q.1)
        (rest.map Prolly.abstr) := (List.pairwise_cons.mp hsorted).2
    have hne : ∀ x ∈ rest.map Prolly.abstr, x.1 ≤ x.2 := by
      intro x hx
      rcases List.mem_map.mp hx with ⟨m, hm, he⟩
      rw [← he]
      exact Prolly.abstr_nonempty m (hrest m hm)
    have hneA : (Prolly.abstr r0).1 ≤ (Prolly.abstr r0).2 := Prolly.abstr_nonempty r0 hr0
    have hsim := Prolly.mergeAcc_sim rest r0 hr0 hrest
    have hpm : (rs.map Prolly.abstr).Perm (Prolly.abstr r0 :: rest.map Prolly.abstr) := by
      have h2 := (hperm.map Prolly.abstr).symm
      rw [hS] at h2
      simpa using h2
    refine ⟨?_, ?_⟩
    · intro t
      rw [hMOR]
      cases hv : Prolly.getField t 0 with
      | none =>
        exact iff_of_false (Prolly.no_admits_of_null _ hsim.2 t hv)
          (Prolly.no_admits_of_null rs hs t hv)
      | some w =>
        rw [Prolly.exists_admits_iff_iv _ hsim.2 w t hv]
        rw [hsim.1]
        rw [Prolly.ivMergeAcc_coverage (rest.map Prolly.abstr) (Prolly.abstr r0) w
          hneA hne haccStarts hsortTail]
        rw [Prolly.exists_admits_iff_iv rs hs w t hv]
        constructor
        · rintro (h | ⟨x, hx, hmem⟩)
          · exact ⟨Prolly.abstr r0, hpm.mem_iff.mpr (List.mem_cons_self _ _), h⟩
          · exact ⟨x, hpm.mem_iff.mpr (List.mem_cons_of_mem _ hx), hmem⟩
        · rintro ⟨mi, hmi, hmem⟩
          rcases List.mem_cons.mp (hpm.mem_iff.mp hmi) with h | h
          · exact Or.inl (h ▸ hmem)
          · exact Or.inr ⟨mi, h, hmem⟩
    · rw [hMOR]
      have hd := Prolly.ivMergeAcc_disjoint (rest.map Prolly.abstr) (Prolly.abstr r0)
        hneA hne haccStarts hsortTail
      rw [← hsim.1] at hd
      have hd2 := List.pairwise_map.mp hd
      exact hd2.imp_of_mem (by
        intro a b ha hb hab
        rw [Prolly.overlaps_eq_iv a b (hsim.2 a ha) (hsim.2 b hb)]
        exact hab)

/-- Witness for the amended C2 at a concrete list of three closed
single-column ranges. -/
theorem claim_C2_merge_ranges_witness :
    (∀ r ∈ [Prolly.simpleRange 7 9, Prolly.simpleRange 1 3, Prolly.simpleRange 2 5],
      Prolly.simpleB r = true) ∧
    ((∀ t : Prolly.Tuple,
      (∃ m ∈ Prolly.MergeOverlappingRanges
          [Prolly.simpleRange 7 9, Prolly.simpleRange 1 3, Prolly.simpleRange 2 5],
        m.admits t = true) ↔
        (∃ r ∈ [Prolly.simpleRange 7 9, Prolly.simpleRange 1 3, Prolly.simpleRange 2 5],
          r.admits t = true)) ∧
    List.Pairwise (fun x y => Prolly.PRange.overlaps x y = false)
      (Prolly.MergeOverlappingRanges
        [Prolly.simpleRange 7 9, Prolly.simpleRange 1 3, Prolly.simpleRange 2 5])) :=
  ⟨by decide, claim_C2_merge_ranges
    [Prolly.simpleRange 7 9, Prolly.simpleRange 1 3, Prolly.simpleRange 2 5] (by decide)⟩

namespace AddrMapB

theorem fold_addItems (items : List (Item × Item × Nat)) (b : AddrMapBuilder) :
    (items.foldl (fun b kvs => addItems b kvs.1 kvs.2.1 kvs.2.2) b).keys.length =
      b.keys.length + items.length ∧
    (items.foldl (fun b kvs => addItems b kvs.1 kvs.2.1 kvs.2.2) b).subtrees.length =
      b.subtrees.length + items.length ∧
    (items.foldl (fun b kvs => addItems b kvs.1 kvs.2.1 kvs.2.2) b).level = b.level := by
  induction items generalizing b with
  | nil => simp
  | cons kvs rest ih =>
    simp only [List.foldl_cons, List.length_cons]
    rcases ih (addItems b kvs.1 kvs.2.1 kvs.2.2) with ⟨h1, h2, h3⟩
    refine ⟨?_, ?_, ?_⟩
    · rw [h1]; simp [addItems]; omega
    · rw [h2]; simp [addItems]; omega
    · rw [h3]; rfl

end AddrMapB

/-- C6: every node emitted by the node builder satisfies the treeCount
invariant: after any batch of AddItems from a fresh builder, a leaf node
carries `treeCount = count` and no subtree counts, and an internal node
carries the subtree-count vector, one entry per key, whose sum equals
`treeCount`. -/
theorem claim_C6_treeCount_invariant (level : Nat)
    (items : List (AddrMapB.Item × AddrMapB.Item × Nat)) :
    (AddrMapB.build (AddrMapB.builderOf level items)).treeCount =
      (if 0 < level then (AddrMapB.builderOf level items).subtrees.sum
       else (AddrMapB.build (AddrMapB.builderOf level items)).keys.length) ∧
    (AddrMapB.build (AddrMapB.builderOf level items)).subtreeCounts =
      (if 0 < level then some (AddrMapB.builderOf level items).subtrees else none) ∧
    (AddrMapB.builderOf level items).subtrees.length =
      (AddrMapB.build (AddrMapB.builderOf level items)).keys.length ∧
    (AddrMapB.build (AddrMapB.builderOf level items)).level = level := by
  have hf := AddrMapB.fold_addItems items (AddrMapB.newAddrMapBuilder level)
  rcases hf with ⟨h1, h2, h3⟩
  have hlev : (AddrMapB.builderOf level items).level = level := by
    rw [AddrMapB.builderOf, h3]
    rfl
  by_cases hl : 0 < level
  · have hl2 : 0 < (AddrMapB.builderOf level items).level := by rw [hlev]; exact hl
    refine ⟨?_, ?_, ?_, ?_⟩ <;>
      simp only [AddrMapB.build, hl2, if_true, hl] <;>
      simp only [AddrMapB.builderOf] at h1 h2 ⊢
    · rw [h1, h2]
      simp [AddrMapB.newAddrMapBuilder]
    · exact hlev
  · have hl2 : ¬ (0 < (AddrMapB.builderOf level items).level) := by rw [hlev]; exact hl
    refine ⟨?_, ?_, ?_, ?_⟩ <;>
      simp only [AddrMapB.build, hl2, hl, if_false] <;>
      simp only [AddrMapB.builderOf] at h1 h2 ⊢
    · rw [h1, h2]
      simp [AddrMapB.newAddrMapBuilder]
    · exact hlev

namespace Archive

theorem relateDeltas_mem (walk : RowMap → RowMap → List (Addr × Addr))
    (deltas : List TableDelta) (g : List (Addr × Addr)) (p : Addr × Addr) :
    p ∈ relateDeltas walk g deltas ↔
      p ∈ g ∨ ∃ d ∈ deltas, d.schemaChanged = false ∧ d.pkChanged = false ∧
        d.dataChanged = true ∧ d.fromLevel = d.toLevel ∧ p ∈ walk d.fromMap d.toMap := by
  induction deltas generalizing g with
  | nil => simp [relateDeltas]
  | cons d rest ih =>
    have hstep : relateDeltas walk g (d :: rest) =
        relateDeltas walk
          (if d.schemaChanged then g
           else if d.pkChanged then g
           else if !d.dataChanged then g
           else if d.fromLevel ≠ d.toLevel then g
           else g ++ walk d.fromMap d.toMap) rest := rfl
    rw [hstep]
    by_cases h1 : d.schemaChanged = true
    · rw [if_pos h1, ih]
      simp only [List.mem_cons]
      constructor
      · rintro (hg | ⟨e, he, hp⟩)
        · exact Or.inl hg
        · exact Or.inr ⟨e, Or.inr he, hp⟩
      · rintro (hg | ⟨e, he, hp⟩)
        · exact Or.inl hg
        · rcases he with he | he
          · exfalso; rw [he] at hp; rw [h1] at hp; simp at hp
          · exact Or.inr ⟨e, he, hp⟩
    · simp only [Bool.not_eq_true] at h1
      rw [if_neg (by simp [h1])]
      by_cases h2 : d.pkChanged = true
      · rw [if_pos h2, ih]
        simp only [List.mem_cons]
        constructor
        · rintro (hg | ⟨e, he, hp⟩)
          · exact Or.inl hg
          · exact Or.inr ⟨e, Or.inr he, hp⟩
        · rintro (hg | ⟨e, he, hp⟩)
          · exact Or.inl hg
          · rcases he with he | he
            · exfalso; rw [he] at hp; rw [h2] at hp; simp at hp
            · exact Or.inr ⟨e, he, hp⟩
      · simp only [Bool.not_eq_true] at h2
        rw [if_neg (by simp [h2])]
        by_cases h3 : d.dataChanged = true
        · rw [if_neg (by simp [h3])]
          by_cases h4 : d.fromLevel = d.toLevel
          · rw [if_neg (by simp [h4]), ih]
            simp only [List.mem_cons, List.mem_append]
            constructor
            · rintro ((hg | hw) | ⟨e, he, hp⟩)
              · exact Or.inl hg
              · exact Or.inr ⟨d, Or.inl rfl, h1, h2, h3, h4, hw⟩
              · exact Or.inr ⟨e, Or.inr he, hp⟩
            · rintro (hg | ⟨e, he, hp⟩)
              · exact Or.inl (Or.inl hg)
              · rcases he with he | he
                · rw [he] at hp
                  exact Or.inl (Or.inr hp.2.2.2.2)
                · exact Or.inr ⟨e, he, hp⟩
          · rw [if_pos (by simp [h4]), ih]
            simp only [List.mem_cons]
            constructor
            · rintro (hg | ⟨e, he, hp⟩)
              · exact Or.inl hg
              · exact Or.inr ⟨e, Or.inr he, hp⟩
            · rintro (hg | ⟨e, he, hp⟩)
              · exact Or.inl hg
              · rcases he with he | he
                · exfalso; rw [he] at hp; exact h4 hp.2.2.2.1
                · exact Or.inr ⟨e, he, hp⟩
        · simp only [Bool.not_eq_true] at h3
          rw [if_pos (by simp [h3]), ih]
          simp only [List.mem_cons]
          constructor
          · rintro (hg | ⟨e, he, hp⟩)
            · exact Or.inl hg
            · exact Or.inr ⟨e, Or.inr he, hp⟩
          · rintro (hg | ⟨e, he, hp⟩)
            · exact Or.inl hg
            · rcases he with he | he
              · exfalso; rw [he] at hp; rw [h3] at hp; simp at hp
              · exact Or.inr ⟨e, he, hp⟩

end Archive

/-- C3, claim as stated is false: for a table delta with unchanged
schema, unchanged primary key set and changed row data whose two row
maps have different root levels, the walk is skipped and its pairs are
not recorded. -/
theorem claim_C3_counterexample :
    ((⟨false, false, true, 0, 1, 10, 11⟩ : Archive.TableDelta).schemaChanged = false ∧
     (⟨false, false, true, 0, 1, 10, 11⟩ : Archive.TableDelta).pkChanged = false ∧
     (⟨false, false, true, 0, 1, 10, 11⟩ : Archive.TableDelta).dataChanged = true) ∧
    (1, 2) ∈ (fun (_ _ : Archive.RowMap) => [((1 : Archive.Addr), (2 : Archive.Addr))])
      (⟨false, false, true, 0, 1, 10, 11⟩ : Archive.TableDelta).fromMap
      (⟨false, false, true, 0, 1, 10, 11⟩ : Archive.TableDelta).toMap ∧
    (1, 2) ∉ Archive.relateCommitToParentChunks
      (fun (_ _ : Archive.RowMap) => [((1 : Archive.Addr), (2 : Archive.Addr))])
      [[⟨false, false, true, 0, 1, 10, 11⟩]] [] := by
  refine ⟨⟨rfl, rfl, rfl⟩, by simp, ?_⟩
  decide

/-- C3 amended: in the archive build pass, a recorded address pair is
exactly one that was already recorded or one reported by the
`ChunkAddressDiffOrderedTrees` walk on a table delta whose schema is
unchanged, whose primary key set is unchanged, whose row data has
changed, AND whose two row maps have equal root levels. -/
theorem claim_C3_relate_chunks (walk : Archive.RowMap → Archive.RowMap → List (Archive.Addr × Archive.Addr))
    (parentDeltas : List (List Archive.TableDelta)) (g : List (Archive.Addr × Archive.Addr))
    (p : Archive.Addr × Archive.Addr) :
    p ∈ Archive.relateCommitToParentChunks walk parentDeltas g ↔
      p ∈ g ∨ ∃ deltas ∈ parentDeltas, ∃ d ∈ deltas,
        d.schemaChanged = false ∧ d.pkChanged = false ∧ d.dataChanged = true ∧
        d.fromLevel = d.toLevel ∧ p ∈ walk d.fromMap d.toMap := by
  induction parentDeltas generalizing g with
  | nil => simp [Archive.relateCommitToParentChunks]
  | cons deltas rest ih =>
    have hstep : Archive.relateCommitToParentChunks walk (deltas :: rest) g =
        Archive.relateCommitToParentChunks walk rest (Archive.relateDeltas walk g deltas) := rfl
    rw [hstep, ih, Archive.relateDeltas_mem]
    simp only [List.mem_cons]
    constructor
    · rintro ((hg | ⟨d, hd, hp⟩) | ⟨ds, hds, hin⟩)
      · exact Or.inl hg
      · exact Or.inr ⟨deltas, Or.inl rfl, d, hd, hp⟩
      · exact Or.inr ⟨ds, Or.inr hds, hin⟩
    · rintro (hg | ⟨ds, hds, d, hd, hp⟩)
      · exact Or.inl (Or.inl hg)
      · rcases hds with hds | hds
        · rw [hds] at hd
          exact Or.inl (Or.inr ⟨d, hd, hp⟩)
        · exact Or.inr ⟨ds, hds, d, hd, hp⟩

/-- C9: under the tuple ordering of `Tuple.Less`, equal tuples are not
less, and a strict-prefix tuple orders strictly before any extension of
it. -/
theorem claim_C9_tuple_less {α : Type} [LinearOrder α] (t e : List α) (he : e ≠ []) :
    Tup.tupleLess t t = false ∧
    Tup.tupleLess t (t ++ e) = true ∧
    Tup.tupleLess (t ++ e) t = false := by
  refine ⟨?_, ?_, ?_⟩
  · induction t with
    | nil => rfl
    | cons a xs ih => simp [Tup.tupleLess, ih]
  · induction t with
    | nil =>
      cases e with
      | nil => exact absurd rfl he
      | cons b ys => rfl
    | cons a xs ih => simp [Tup.tupleLess, ih]
  · induction t with
    | nil =>
      cases e with
      | nil => exact absurd rfl he
      | cons b ys => rfl
    | cons a xs ih => simp [Tup.tupleLess, ih]

/-- Witness for C9 at a concrete tuple and nonempty extension. -/
theorem claim_C9_tuple_less_witness :
    ([(7 : Int), 3] ≠ []) ∧
    (Tup.tupleLess [(1 : Int), 2] [(1 : Int), 2] = false ∧
     Tup.tupleLess [(1 : Int), 2] ([(1 : Int), 2] ++ [7, 3]) = true ∧
     Tup.tupleLess ([(1 : Int), 2] ++ [7, 3]) [(1 : Int), 2] = false) :=
  ⟨by simp, claim_C9_tuple_less [(1 : Int), 2] [7, 3] (by simp)⟩

/-- C10: for every AddressMap and name not present in the map, `Get`
returns the zero-valued 20-byte hash together with a nil error; absence
is signalled only through the zero hash. -/
theorem claim_C10_get_absent (m : List (String × AddrMap.Hash20)) (name : String)
    (h : AddrMap.lookupName m name = none) :
    AddrMap.addressMapGet m name = (List.replicate 20 0, none) := by
  rw [AddrMap.addressMapGet, h]
  rfl

/-- Witness for C10 at a concrete map missing the queried name. -/
theorem claim_C10_get_absent_witness :
    AddrMap.lookupName [("dsA", List.replicate 20 7)] "dsB" = none ∧
    AddrMap.addressMapGet [("dsA", List.replicate 20 7)] "dsB" =
      (List.replicate 20 0, none) :=
  ⟨by decide, claim_C10_get_absent [("dsA", List.replicate 20 7)] "dsB" (by decide)⟩

/-- C4: for the map chunk cache, a batch Put followed by a
GetAndClearChunksToFlush leaves nothing for a second
GetAndClearChunksToFlush; PutChunk of an already-present chunk returns
false and leaves the state (hence `toFlush`) unchanged; and Has returns
exactly the hashes that Get would not find. -/
theorem claim_C4_map_chunk_cache (s : Cache.MCC) (cs : List Cache.Chunk)
    (c : Cache.Chunk) (hc : (Cache.assocFind s.cache c.chash).isSome = true)
    (hs : List Nat) :
    (Cache.getAndClearChunksToFlush
      ((Cache.getAndClearChunksToFlush (Cache.put s cs)).2)).1 = [] ∧
    Cache.putChunk s c = (false, s) ∧
    (∀ h : Nat, h ∈ Cache.hasAbsent s hs ↔
      (h ∈ hs ∧ ∀ p ∈ Cache.getChunks s hs, p.1 ≠ h)) := by
  refine ⟨rfl, ?_, ?_⟩
  · rw [Option.isSome_iff_exists] at hc
    rcases hc with ⟨d, hd⟩
    rw [Cache.putChunk, hd]
  · intro h
    constructor
    · intro hmem
      rcases List.mem_filter.mp hmem with ⟨hin, hnone⟩
      refine ⟨hin, ?_⟩
      intro p hp hph
      rcases List.mem_filterMap.mp hp with ⟨a, ha, hfa⟩
      cases hfa2 : Cache.assocFind s.cache a with
      | none => rw [hfa2] at hfa; simp at hfa
      | some d =>
        rw [hfa2] at hfa
        have hfa3 : (a, d) = p := by simpa using hfa
        have hpa : a = h := by rw [← hph, ← hfa3]
        rw [hpa] at hfa2
        rw [hfa2] at hnone
        simp at hnone
    · rintro ⟨hin, hall⟩
      refine List.mem_filter.mpr ⟨hin, ?_⟩
      cases hfa2 : Cache.assocFind s.cache h with
      | none => simp
      | some d =>
        exfalso
        refine hall (h, d) ?_ rfl
        exact List.mem_filterMap.mpr ⟨h, hin, by rw [hfa2]; rfl⟩

/-- Witness for C4 at a concrete cache holding one chunk. -/
theorem claim_C4_map_chunk_cache_witness :
    ((Cache.assocFind [(5, ⟨5, 100⟩)] (5 : Nat)).isSome = true) ∧
    ((Cache.getAndClearChunksToFlush
      ((Cache.getAndClearChunksToFlush
        (Cache.put ⟨[(5, ⟨5, 100⟩)], []⟩ [⟨6, 200⟩])).2)).1 = [] ∧
    Cache.putChunk ⟨[(5, ⟨5, 100⟩)], []⟩ ⟨5, 100⟩ = (false, ⟨[(5, ⟨5, 100⟩)], []⟩) ∧
    (∀ h : Nat, h ∈ Cache.hasAbsent ⟨[(5, ⟨5, 100⟩)], []⟩ [5, 6] ↔
      (h ∈ [5, 6] ∧ ∀ p ∈ Cache.getChunks ⟨[(5, ⟨5, 100⟩)], []⟩ [5, 6], p.1 ≠ h))) :=
  ⟨by decide, claim_C4_map_chunk_cache ⟨[(5, ⟨5, 100⟩)], []⟩ [⟨6, 200⟩] ⟨5, 100⟩
    (by decide) [5, 6]⟩

/-- C8, claim as stated is false in the degenerate case: when both
concurrent commits propose a new root equal to the expected root, both
CAS steps succeed, so it is not the case that exactly one returns
true. -/
theorem claim_C8_counterexample :
    (CAS.commitCAS 0 0 0).2 = true ∧
    (CAS.commitCAS (CAS.commitCAS 0 0 0).1 0 0).2 = true := by
  decide

/-- C8 amended: `Commit(new, expected)` updates the root iff the current
root equals `expected` and otherwise returns false leaving the root
unchanged, with `runRoot` reporting the optimistic concurrency failure;
and of two commits racing from root `R0` with `expected = R0`, provided
each proposed new root differs from `R0`, in either serialization order
exactly the first returns true and the second returns false. -/
theorem claim_C8_root_cas (root new expected R0 n1 n2 : CAS.RHash)
    (h1 : n1 ≠ R0) (h2 : n2 ≠ R0) :
    ((CAS.commitCAS root new expected).2 = true ↔ root = expected) ∧
    (CAS.commitCAS root new expected).1 = (if root = expected then new else root) ∧
    ((CAS.commitCAS root new expected).2 = false →
      (CAS.commitCAS root new expected).1 = root ∧
      CAS.runRootFinish false false = ⟨1, true⟩) ∧
    ((CAS.commitCAS R0 n1 R0).2 = true ∧
      (CAS.commitCAS (CAS.commitCAS R0 n1 R0).1 n2 R0).2 = false) ∧
    ((CAS.commitCAS R0 n2 R0).2 = true ∧
      (CAS.commitCAS (CAS.commitCAS R0 n2 R0).1 n1 R0).2 = false) := by
  refine ⟨?_, ?_, ?_, ?_, ?_⟩
  · by_cases h : root = expected <;> simp [CAS.commitCAS, h]
  · by_cases h : root = expected <;> simp [CAS.commitCAS, h]
  · intro hf
    by_cases h : root = expected
    · simp [CAS.commitCAS, h] at hf
    · simp [CAS.commitCAS, h]
      rfl
  · simp [CAS.commitCAS, h1]
  · simp [CAS.commitCAS, h2]

/-- Witness for the amended C8 at concrete roots. -/
theorem claim_C8_root_cas_witness :
    ((3 : CAS.RHash) ≠ 0 ∧ (4 : CAS.RHash) ≠ 0) ∧
    (((CAS.commitCAS 1 2 1).2 = true ↔ (1 : CAS.RHash) = 1) ∧
    (CAS.commitCAS 1 2 1).1 = (if (1 : CAS.RHash) = 1 then 2 else 1) ∧
    ((CAS.commitCAS 1 2 1).2 = false →
      (CAS.commitCAS 1 2 1).1 = 1 ∧
      CAS.runRootFinish false false = ⟨1, true⟩) ∧
    ((CAS.commitCAS 0 3 0).2 = true ∧
      (CAS.commitCAS (CAS.commitCAS 0 3 0).1 4 0).2 = false) ∧
    ((CAS.commitCAS 0 4 0).2 = true ∧
      (CAS.commitCAS (CAS.commitCAS 0 4 0).1 3 0).2 = false)) :=
  ⟨⟨by decide, by decide⟩, claim_C8_root_cas 1 2 1 0 3 4 (by decide) (by decide)⟩

namespace Spatial

theorem cellRange_inj (a b c d : Cell) :
    cellRange a b = cellRange c d ↔ a = c ∧ b = d := by
  simp [cellRange, SRange.mk.injEq, SRangeField.mk.injEq, SBound.mk.injEq]

theorem levelLoop_some_eq (zMask : Nat → ZVal → Cell) (level : Nat)
    (zrs : List ZRangePair) (mn mx : Cell) :
    levelLoop zMask level zrs (some (mn, mx)) =
      dedupGo (cellRange mn mx) (zrs.map (mkSpatialRange zMask level)) := by
  induction zrs generalizing mn mx with
  | nil => rfl
  | cons zr rest ih =>
    simp only [levelLoop, List.map_cons, dedupGo, mkSpatialRange]
    by_cases h : zMask level zr.1 = mn ∧ zMask level zr.2 = mx
    · rw [if_pos (by simp [h.1, h.2])]
      rw [if_pos (by rw [cellRange_inj]; exact h)]
      rw [ih mn mx, ← h.1, ← h.2]
    · have honot : ¬ ((some (mn, mx) : Option (Cell × Cell)) =
          some (zMask level zr.1, zMask level zr.2)) := by
        simp only [Option.some.injEq, Prod.mk.injEq]
        intro hc
        exact h ⟨hc.1.symm, hc.2.symm⟩
      rw [if_neg honot]
      have hcnot : ¬ (cellRange (zMask level zr.1) (zMask level zr.2) = cellRange mn mx) := by
        intro hc
        exact h ((cellRange_inj _ _ _ _).mp hc)
      rw [if_neg hcnot, ih]

theorem levelLoop_none_eq (zMask : Nat → ZVal → Cell) (level : Nat)
    (zrs : List ZRangePair) :
    levelLoop zMask level zrs none =
      dedupConsec (zrs.map (mkSpatialRange zMask level)) := by
  cases zrs with
  | nil => rfl
  | cons zr rest =>
    simp only [levelLoop, List.map_cons, dedupConsec, mkSpatialRange]
    rw [if_neg (by simp)]
    rw [levelLoop_some_eq]

theorem dedupGo_append {α : Type} [DecidableEq α] (xs : List α) (p : α) (ys : List α) :
    dedupGo p (xs ++ ys) = dedupGo p xs ++ dedupGo (xs.getLastD p) ys := by
  induction xs generalizing p with
  | nil => rfl
  | cons x t ih =>
    have e1 : (x :: t) ++ ys = x :: (t ++ ys) := rfl
    rw [e1]
    simp only [dedupGo, List.getLastD_cons]
    by_cases h : x = p
    · rw [if_pos h, if_pos h, ih p, h]
    · rw [if_neg h, if_neg h, ih x]
      rfl

theorem dedupGo_cons_ne {α : Type} [DecidableEq α] (p b : α) (bs : List α) (h : b ≠ p) :
    dedupGo p (b :: bs) = dedupConsec (b :: bs) := by
  simp only [dedupGo, dedupConsec, if_neg h]

theorem getLastD_mem {α : Type} (l : List α) (d : α) (h : l ≠ []) : l.getLastD d ∈ l := by
  induction l generalizing d with
  | nil => exact absurd rfl h
  | cons a t ih =>
    rw [List.getLastD_cons]
    cases t with
    | nil => simp
    | cons b t2 => exact List.mem_cons_of_mem _ (ih a (by simp))

theorem glue2 (zMask : Nat → ZVal → Cell) (zRanges : List ZRangePair)
    (hz : ∀ l1 l2 z1 z2, zMask l1 z1 = zMask l2 z2 → l1 = l2)
    (ls : List Nat) (p : SRange) (hnd : ls.Nodup)
    (hp : ∀ l ∈ ls, ∀ zr ∈ zRanges, mkSpatialRange zMask l zr ≠ p) :
    dedupGo p (ls.flatMap (fun l => zRanges.map (mkSpatialRange zMask l))) =
      ls.flatMap (fun l => dedupConsec (zRanges.map (mkSpatialRange zMask l))) := by
  induction ls generalizing p with
  | nil => rfl
  | cons l1 ls1 ih =>
    rcases List.nodup_cons.mp hnd with ⟨hnotin, hnd1⟩
    rw [List.flatMap_cons, List.flatMap_cons]
    cases hzr : zRanges with
    | nil =>
      have hfl : (ls1.flatMap fun _ => ([] : List SRange)) = [] := by simp
      simp [hzr, dedupConsec, dedupGo, hfl]
    | cons zr0 zrs0 =>
      subst hzr
      rw [dedupGo_append]
      have hhead : dedupGo p ((zr0 :: zrs0).map (mkSpatialRange zMask l1)) =
          dedupConsec ((zr0 :: zrs0).map (mkSpatialRange zMask l1)) := by
        rw [List.map_cons]
        exact dedupGo_cons_ne p _ _
          (hp l1 (List.mem_cons_self _ _) zr0 (List.mem_cons_self _ _))
      rw [hhead]
      have hM0ne : ((zr0 :: zrs0).map (mkSpatialRange zMask l1)) ≠ [] := by simp
      have hlast := getLastD_mem ((zr0 :: zrs0).map (mkSpatialRange zMask l1)) p hM0ne
      rcases List.mem_map.mp hlast with ⟨zrL, hzrL, hLeq⟩
      have hp2 : ∀ l ∈ ls1, ∀ zr ∈ (zr0 :: zrs0), mkSpatialRange zMask l zr ≠
          ((zr0 :: zrs0).map (mkSpatialRange zMask l1)).getLastD p := by
        intro l hl zr hzr2 hc
        rw [← hLeq] at hc
        have hmaskeq : zMask l zr.1 = zMask l1 zrL.1 :=
          ((cellRange_inj _ _ _ _).mp hc).1
        have : l = l1 := hz l l1 zr.1 zrL.1 hmaskeq
        rw [this] at hl
        exact hnotin hl
      rw [ih _ hnd1 hp2]

theorem glue_top (zMask : Nat → ZVal → Cell) (zRanges : List ZRangePair)
    (hz : ∀ l1 l2 z1 z2, zMask l1 z1 = zMask l2 z2 → l1 = l2)
    (ls : List Nat) (hnd : ls.Nodup) :
    ls.flatMap (fun l => dedupConsec (zRanges.map (mkSpatialRange zMask l))) =
      dedupConsec (ls.flatMap (fun l => zRanges.map (mkSpatialRange zMask l))) := by
  induction ls with
  | nil => rfl
  | cons l1 ls1 ih =>
    rcases List.nodup_cons.mp hnd with ⟨hnotin, hnd1⟩
    rw [List.flatMap_cons, List.flatMap_cons]
    cases hzr : zRanges with
    | nil =>
      have hfl : (ls1.flatMap fun _ => ([] : List SRange)) = [] := by simp
      simp [hzr, dedupConsec, dedupGo, hfl]
    | cons zr0 zrs0 =>
      subst hzr
      rw [List.map_cons, List.cons_append]
      rw [show dedupConsec (mkSpatialRange zMask l1 zr0 ::
            (zrs0.map (mkSpatialRange zMask l1) ++
              ls1.flatMap (fun l => (zr0 :: zrs0).map (mkSpatialRange zMask l)))) =
          mkSpatialRange zMask l1 zr0 ::
            dedupGo (mkSpatialRange zMask l1 zr0)
              (zrs0.map (mkSpatialRange zMask l1) ++
                ls1.flatMap (fun l => (zr0 :: zrs0).map (mkSpatialRange zMask l)))
        from rfl]
      rw [dedupGo_append]
      have hM0ne : ((zr0 :: zrs0).map (mkSpatialRange zMask l1)) ≠ [] := by simp
      have hq : (zrs0.map (mkSpatialRange zMask l1)).getLastD (mkSpatialRange zMask l1 zr0) =
          ((zr0 :: zrs0).map (mkSpatialRange zMask l1)).getLastD (mkSpatialRange zMask l1 zr0) := by
        rw [List.map_cons, List.getLastD_cons]
      rw [hq]
      have hlast := getLastD_mem ((zr0 :: zrs0).map (mkSpatialRange zMask l1))
        (mkSpatialRange zMask l1 zr0) hM0ne
      rcases List.mem_map.mp hlast with ⟨zrL, hzrL, hLeq⟩
      have hp1 : ∀ l ∈ ls1, ∀ zr ∈ (zr0 :: zrs0), mkSpatialRange zMask l zr ≠
          ((zr0 :: zrs0).map (mkSpatialRange zMask l1)).getLastD
            (mkSpatialRange zMask l1 zr0) := by
        intro l hl zr hzr2 hc
        rw [← hLeq] at hc
        have hmaskeq : zMask l zr.1 = zMask l1 zrL.1 :=
          ((cellRange_inj _ _ _ _).mp hc).1
        have : l = l1 := hz l l1 zr.1 zrL.1 hmaskeq
        rw [this] at hl
        exact hnotin hl
      rw [glue2 zMask (zr0 :: zrs0) hz ls1 _ hnd1 hp1]
      rfl

theorem levelLoop_mem (zMask : Nat → ZVal → Cell) (level : Nat)
    (zrs : List ZRangePair) (prev : Option (Cell × Cell)) (r : SRange)
    (hr : r ∈ levelLoop zMask level zrs prev) :
    ∃ zr ∈ zrs, r = cellRange (zMask level zr.1) (zMask level zr.2) := by
  induction zrs generalizing prev with
  | nil => simp [levelLoop] at hr
  | cons zr rest ih =>
    simp only [levelLoop] at hr
    by_cases h : prev = some (zMask level zr.1, zMask level zr.2)
    · rw [if_pos h] at hr
      rcases ih prev hr with ⟨zr2, hzr2, he⟩
      exact ⟨zr2, List.mem_cons_of_mem _ hzr2, he⟩
    · rw [if_neg h] at hr
      rcases List.mem_cons.mp hr with he | hr2
      · exact ⟨zr, List.mem_cons_self _ _, he⟩
      · rcases ih _ hr2 with ⟨zr2, hzr2, he⟩
        exact ⟨zr2, List.mem_cons_of_mem _ hzr2, he⟩

end Spatial

/-- C7: for every bounding-box query (entering here as the split list of
Z-ranges and the cell mask), the produced prolly ranges are exactly the
per-level emissions over cell levels 0 through 64, one single-field
range per Z-range with both bounds binding and inclusive at values
`ZMask(level, zLo)` and `ZMask(level, zHi)`, with consecutive emissions
that produce identical cell bounds coalesced into one range; the mask
hypothesis records that cells carry their level, so emissions at
different levels never collide. -/
theorem claim_C7_spatial_ranges (zMask : Nat → Spatial.ZVal → Spatial.Cell)
    (zRanges : List Spatial.ZRangePair)
    (hz : ∀ l1 l2 z1 z2, zMask l1 z1 = zMask l2 z2 → l1 = l2) :
    Spatial.prollySpatialRanges zMask zRanges =
      Spatial.dedupConsec ((List.range 65).flatMap
        (fun level => zRanges.map (Spatial.mkSpatialRange zMask level))) ∧
    ∀ r ∈ Spatial.prollySpatialRanges zMask zRanges,
      ∃ level zr, level < 65 ∧ zr ∈ zRanges ∧
        r = Spatial.cellRange (zMask level zr.1) (zMask level zr.2) := by
  constructor
  · rw [Spatial.prollySpatialRanges]
    have hcong : ((List.range 65).flatMap fun level =>
          Spatial.levelLoop zMask level zRanges none) =
        ((List.range 65).flatMap fun level =>
          Spatial.dedupConsec (zRanges.map (Spatial.mkSpatialRange zMask level))) :=
      congrArg (List.flatMap (List.range 65))
        (funext fun level => Spatial.levelLoop_none_eq zMask level zRanges)
    rw [hcong]
    exact Spatial.glue_top zMask zRanges hz (List.range 65) (List.nodup_range 65)
  · intro r hr
    rw [Spatial.prollySpatialRanges] at hr
    rcases List.mem_flatMap.mp hr with ⟨level, hlevel, hr2⟩
    rcases Spatial.levelLoop_mem zMask level zRanges none r hr2 with ⟨zr, hzr, he⟩
    exact ⟨level, zr, List.mem_range.mp hlevel, hzr, he⟩

/-- Witness for C7 at a concrete level-tagged mask and Z-range split. -/
theorem claim_C7_spatial_ranges_witness :
    (∀ l1 l2 z1 z2, (fun (l : Nat) (_ : Spatial.ZVal) => (l : Spatial.Cell)) l1 z1 =
        (fun (l : Nat) (_ : Spatial.ZVal) => (l : Spatial.Cell)) l2 z2 → l1 = l2) ∧
    (Spatial.prollySpatialRanges (fun (l : Nat) (_ : Spatial.ZVal) => (l : Spatial.Cell))
        [(0, 3), (2, 5)] =
      Spatial.dedupConsec ((List.range 65).flatMap
        (fun level => [((0 : Spatial.ZVal), (3 : Spatial.ZVal)), (2, 5)].map
          (Spatial.mkSpatialRange (fun (l : Nat) (_ : Spatial.ZVal) => (l : Spatial.Cell)) level))) ∧
    ∀ r ∈ Spatial.prollySpatialRanges (fun (l : Nat) (_ : Spatial.ZVal) => (l : Spatial.Cell))
        [(0, 3), (2, 5)],
      ∃ level zr, level < 65 ∧ zr ∈ [((0 : Spatial.ZVal), (3 : Spatial.ZVal)), (2, 5)] ∧
        r = Spatial.cellRange ((fun (l : Nat) (_ : Spatial.ZVal) => (l : Spatial.Cell)) level zr.1)
          ((fun (l : Nat) (_ : Spatial.ZVal) => (l : Spatial.Cell)) level zr.2)) := by
  have hz : ∀ l1 l2 z1 z2, (fun (l : Nat) (_ : Spatial.ZVal) => (l : Spatial.Cell)) l1 z1 =
      (fun (l : Nat) (_ : Spatial.ZVal) => (l : Spatial.Cell)) l2 z2 → l1 = l2 := by
    intro l1 l2 z1 z2 h
    simp only at h
    exact_mod_cast h
  exact ⟨hz, claim_C7_spatial_ranges _ [(0, 3), (2, 5)] hz⟩
